import Mathlib

/-!
# Filesystem watcher and rescan scheduler

A shallow embedding of `lib/fswatcher/fswatcher.go` and
`lib/model/folderscanner.go`.

Modelling conventions.

* A Go `string` is a byte sequence; it is modelled as `List Char`, one `Char`
  per byte.  Literals are written `"...".toList`.
* `time.Duration` is an `int64` count of nanoseconds, modelled as an `Int`;
  where the source does `int64` arithmetic the wrap-around is explicit
  (`wrapInt64`).
* A Go `map` is modelled as an association list.  Assigning a key removes any
  older entry for that key, so assignment never creates a second entry.
* The watcher owns all of its state in one goroutine.  A channel the loop sends
  on is modelled by the list of values sent so far; the channels it receives
  from are modelled by the input (`Select`) handed to one loop iteration.
* Collaborators that live outside the repository (`filepath.Rel`, the ignore
  matcher, the temporary-name recogniser, `rand.Int63n`) are parameters.
-/

namespace Fswatcher

/-- A Go string, as its sequence of bytes. -/
abbrev GoString := List Char

/-- A `time.Duration`: nanoseconds. -/
abbrev Duration := Int

/-- The constant `time.Millisecond`. -/
def Millisecond : Duration := 1000000

/-- The constant `time.Second`. -/
def Second : Duration := 1000000000

/-- The constant `slowNotifyDelay = time.Duration(60) * time.Second`. -/
def slowNotifyDelay : Duration := 60 * Second

/-- The constant `fastNotifyDelay = time.Duration(500) * time.Millisecond`. -/
def fastNotifyDelay : Duration := 500 * Millisecond

/-- The struct `FsEvent`. -/
structure FsEvent where
  path : GoString
deriving DecidableEq, Repr

/-- The type `FsEventsBatch = map[string]*FsEvent`, as an association list. -/
abbrev FsEventsBatch := List (GoString × FsEvent)

namespace FsEventsBatch

/-- The keys of the map. -/
def keys (b : FsEventsBatch) : List GoString := b.map Prod.fst

/-- Map lookup `b[k]`. -/
def get? (b : FsEventsBatch) (k : GoString) : Option FsEvent :=
  (b.find? (fun e => e.1 == k)).map Prod.snd

/-- Map assignment `b[k] = v`. -/
def set (b : FsEventsBatch) (k : GoString) (v : FsEvent) : FsEventsBatch :=
  (k, v) :: b.filter (fun e => e.1 != k)

/-- The builtin `len(b)`. -/
def len (b : FsEventsBatch) : Nat := b.length

/-- The method `GetPaths`: the stored path of every entry, in iteration order. -/
def GetPaths (b : FsEventsBatch) : List GoString := b.map (fun e => e.2.path)

end FsEventsBatch

/-- The kinds of `events.Event` the watcher can be handed.  It subscribes to
`ItemStarted | ItemFinished`; `Other` stands for every other event type. -/
inductive EventType where
  | ItemStarted
  | ItemFinished
  | Other
deriving DecidableEq, Repr

/-- An `events.Event`, reduced to its type and the `"item"` entry of its
`Data` map (the only part of the payload the watcher reads). -/
structure Event where
  type : EventType
  item : GoString
deriving DecidableEq, Repr

/-- The collaborators of the watcher that are not part of the repository. -/
structure Env where
  /-- The first result of `filepath.Rel(basepath, targpath)`; the caller
  discards the error. -/
  Rel : GoString → GoString → GoString
  /-- The method `Tempnamer.IsTemporary`. -/
  IsTemporary : GoString → Bool

/-- The struct `FsWatcher`.  The field `ignores` is the matcher as seen through
`scanner.IsIgnoredPath(path, ignores)`; `notifyModelChan` is the list of
batches sent on that channel so far; `notifyTimer` is the duration the timer
was last armed with (`none` before the timer exists). -/
structure FsWatcher where
  folderPath : GoString
  notifyModelChan : List FsEventsBatch
  fsEvents : FsEventsBatch
  WatchingFs : Bool
  notifyDelay : Duration
  notifyTimer : Option Duration
  notifyTimerNeedsReset : Bool
  inProgress : List GoString
  ignores : GoString → Bool

/-- The constructor `NewFsWatcher`. -/
def NewFsWatcher (folderPath : GoString) (ignores : GoString → Bool) : FsWatcher :=
  { folderPath := folderPath
    notifyModelChan := []
    fsEvents := []
    WatchingFs := false
    notifyDelay := fastNotifyDelay
    notifyTimer := none
    notifyTimerNeedsReset := false
    inProgress := []
    ignores := ignores }

/-- The function `os.IsPathSeparator` on Unix. -/
def IsPathSeparator (c : Char) : Bool := c == '/'

/-- The statement `if len(s) > 1 && os.IsPathSeparator(s[len(s)-1]) { s = s[0 : len(s)-1] }`,
which `isSubpath` applies to both of its arguments. -/
def stripTrailingSeparator (s : GoString) : GoString :=
  if s.length > 1 && s.getLast?.any IsPathSeparator then s.dropLast else s

/-- The function `isSubpath`; `strings.HasPrefix(path, folderPath)` is
`folderPath.isPrefixOf path`. -/
def isSubpath (path : GoString) (folderPath : GoString) : Bool :=
  let path := stripTrailingSeparator path
  let folderPath := stripTrailingSeparator folderPath
  folderPath.isPrefixOf path

/-- The method `shouldIgnore`. -/
def shouldIgnore (env : Env) (watcher : FsWatcher) (path : GoString) : Bool :=
  watcher.ignores path || env.IsTemporary path

/-- The method `pathInProgress`. -/
def pathInProgress (watcher : FsWatcher) (path : GoString) : Bool :=
  watcher.inProgress.elem path

/-- The method `newFsEvent`; `none` is the nil pointer. -/
def newFsEvent (env : Env) (watcher : FsWatcher) (eventPath : GoString) : Option FsEvent :=
  if isSubpath eventPath watcher.folderPath then
    let path := env.Rel watcher.folderPath eventPath
    if !shouldIgnore env watcher path then
      some ⟨path⟩
    else
      none
  else
    none

/-- The method `resetNotifyTimerIfNeeded`. -/
def resetNotifyTimerIfNeeded (watcher : FsWatcher) : FsWatcher :=
  if watcher.notifyTimerNeedsReset then
    { watcher with notifyTimer := some watcher.notifyDelay, notifyTimerNeedsReset := false }
  else
    watcher

/-- The method `speedUpNotifyTimer`. -/
def speedUpNotifyTimer (watcher : FsWatcher) : FsWatcher :=
  if watcher.notifyDelay != fastNotifyDelay then
    { watcher with notifyDelay := fastNotifyDelay, notifyTimerNeedsReset := true }
  else
    watcher

/-- The method `slowDownNotifyTimer`. -/
def slowDownNotifyTimer (watcher : FsWatcher) : FsWatcher :=
  if watcher.notifyDelay != slowNotifyDelay then
    { watcher with notifyDelay := slowNotifyDelay, notifyTimerNeedsReset := true }
  else
    watcher

/-- The method `storeFsEvent`. -/
def storeFsEvent (watcher : FsWatcher) (event : FsEvent) : FsWatcher :=
  if pathInProgress watcher event.path then
    watcher
  else
    { watcher with fsEvents := watcher.fsEvents.set event.path event }

/-- The method `actOnTimer`.  The blocking send on `notifyModelChan` is the
append to the list of sent batches. -/
def actOnTimer (watcher : FsWatcher) : FsWatcher :=
  let watcher := { watcher with notifyTimerNeedsReset := true }
  let watcher :=
    if watcher.fsEvents.len > 0 then
      { watcher with notifyModelChan := watcher.notifyModelChan ++ [watcher.fsEvents] }
    else
      slowDownNotifyTimer watcher
  { watcher with fsEvents := [] }

/-- The method `updateInProgressSet`.  Inserting into the set `inProgress`
keeps one copy of the path; `delete` removes it. -/
def updateInProgressSet (watcher : FsWatcher) (event : Event) : FsWatcher :=
  match event.type with
  | EventType.ItemStarted =>
    { watcher with inProgress :=
        if watcher.inProgress.elem event.item then watcher.inProgress
        else event.item :: watcher.inProgress }
  | EventType.ItemFinished =>
    { watcher with inProgress := watcher.inProgress.filter (fun p => p != event.item) }
  | EventType.Other => watcher

/-- The method `UpdateIgnores`. -/
def UpdateIgnores (watcher : FsWatcher) (ignores : GoString → Bool) : FsWatcher :=
  { watcher with ignores := ignores }

/-- What the `select` of `watchFilesystem` received: a raw event carrying
`event.Path()`, the timer channel firing, or an item-lifecycle event. -/
inductive Select where
  | fsEvent (eventPath : GoString)
  | timer
  | item (event : Event)
deriving DecidableEq, Repr

/-- The first case of the `select`: a raw filesystem event. -/
def onFsEvent (env : Env) (watcher : FsWatcher) (eventPath : GoString) : FsWatcher :=
  match newFsEvent env watcher eventPath with
  | some newEvent => storeFsEvent (speedUpNotifyTimer watcher) newEvent
  | none => watcher

/-- The `select` statement of `watchFilesystem`. -/
def selectCase (env : Env) (watcher : FsWatcher) : Select → FsWatcher
  | Select.fsEvent eventPath => onFsEvent env watcher eventPath
  | Select.timer => actOnTimer watcher
  | Select.item event => updateInProgressSet watcher event

/-- One iteration of the `for` loop of `watchFilesystem`. -/
def loopIteration (env : Env) (watcher : FsWatcher) (s : Select) : FsWatcher :=
  selectCase env (resetNotifyTimerIfNeeded watcher) s

/-- The loop of `watchFilesystem` run over the inputs its `select` receives. -/
def runLoop (env : Env) (watcher : FsWatcher) (inputs : List Select) : FsWatcher :=
  inputs.foldl (loopIteration env) watcher

/-- The method `watchFilesystem`: create the timer, then loop. -/
def watchFilesystem (env : Env) (watcher : FsWatcher) (inputs : List Select) : FsWatcher :=
  runLoop env { watcher with notifyTimer := some watcher.notifyDelay } inputs

/-- The method `StartWatchingFilesystem`, given whether `setupNotifications`
succeeded: on success the watcher is marked as watching and the goroutine
running `watchFilesystem` is started. -/
def StartWatchingFilesystem (watcher : FsWatcher) (setupOk : Bool) : FsWatcher :=
  if setupOk then { watcher with WatchingFs := true } else watcher

/-- The first statement of `watchFilesystem`:
`watcher.notifyTimer = time.NewTimer(watcher.notifyDelay)`. -/
def newNotifyTimer (watcher : FsWatcher) : FsWatcher :=
  { watcher with notifyTimer := some watcher.notifyDelay }

/-- One step of the loop of `watchFilesystem`: the timer reset at the top of
an iteration, or a case of its `select`. -/
inductive LoopStep where
  | reset
  | select (s : Select)
deriving DecidableEq, Repr

/-- The effect of one loop step. -/
def applyStep (env : Env) (watcher : FsWatcher) : LoopStep → FsWatcher
  | LoopStep.reset => resetNotifyTimerIfNeeded watcher
  | LoopStep.select s => selectCase env watcher s

/-- The watcher states the loop of `watchFilesystem` can be in: the state in
which a watcher made by `NewFsWatcher` and started by `StartWatchingFilesystem`
enters the loop (its timer just created), and every state that loop steps lead
to from there, in any order, with calls of `UpdateIgnores` in between. -/
inductive Reachable (env : Env) : FsWatcher → Prop where
  | start (folderPath : GoString) (ignores : GoString → Bool) :
      Reachable env
        (newNotifyTimer (StartWatchingFilesystem (NewFsWatcher folderPath ignores) true))
  | step (w : FsWatcher) (st : LoopStep) :
      Reachable env w → Reachable env (applyStep env w st)
  | updateIgnores (w : FsWatcher) (ignores : GoString → Bool) :
      Reachable env w → Reachable env (UpdateIgnores w ignores)

/-- The key of every entry is the path stored in its event. -/
def FsEventsBatch.KeysArePaths (b : FsEventsBatch) : Prop :=
  ∀ e ∈ b, e.2.path = e.1

/-! ### The Go standard library functions the watcher is used with

`path/filepath` is not part of the repository.  The watcher itself takes
`filepath.Rel` as a parameter (`Env.Rel`); the definitions below follow the
Unix versions of `filepath.Clean`, `filepath.Join` and `filepath.Rel` (no volume
names, separator `/`, `sameWord` is `==`), so that the watcher can be run on
concrete paths and the relative-path conversion can be stated with
`filepath.Join`. -/

namespace Filepath

/-- The byte `s[i]` of a string (`'\x00'` out of range, which the callers
below never read). -/
def byteAt (s : GoString) (i : Nat) : Char := s.getD i (Char.ofNat 0)

/-- The `..` case of `Clean` when it can backtrack:
`out.w--; for out.w > dotdot && !os.IsPathSeparator(out.index(out.w)) { out.w-- }`,
as a function from the value of `out.w` after the first decrement. -/
def backtrack (buf : GoString) (dotdot : Nat) : Nat → Nat
  | 0 => 0
  | w + 1 =>
    if w + 1 > dotdot && !IsPathSeparator (byteAt buf (w + 1)) then backtrack buf dotdot w
    else w + 1

/-- The main loop `for r < n { switch ... }` of `Clean`, with `out` the bytes
written so far (`out.w` is `out.length`).  Every iteration advances `r`, so
`fuel = n` iterations are enough. -/
def cleanLoop (path : GoString) (rooted : Bool) :
    Nat → Nat → Nat → GoString → GoString
  | 0, _, _, out => out
  | fuel + 1, r, dotdot, out =>
    let n := path.length
    if r < n then
      if IsPathSeparator (byteAt path r) then
        -- empty path element
        cleanLoop path rooted fuel (r + 1) dotdot out
      else if byteAt path r == '.' && (r + 1 == n || IsPathSeparator (byteAt path (r + 1))) then
        -- . element
        cleanLoop path rooted fuel (r + 1) dotdot out
      else if byteAt path r == '.' && byteAt path (r + 1) == '.' &&
          (r + 2 == n || IsPathSeparator (byteAt path (r + 2))) then
        -- .. element: remove to last separator
        if out.length > dotdot then
          -- can backtrack
          cleanLoop path rooted fuel (r + 2) dotdot
            (out.take (backtrack out dotdot (out.length - 1)))
        else if !rooted then
          -- cannot backtrack, but not rooted, so append .. element
          let out := if out.length > 0 then out ++ ['/'] else out
          let out := out ++ ['.', '.']
          cleanLoop path rooted fuel (r + 2) out.length out
        else
          cleanLoop path rooted fuel (r + 2) dotdot out
      else
        -- real path element: add slash if needed, then copy the element
        let out :=
          if (rooted && out.length != 1) || (!rooted && out.length != 0) then out ++ ['/']
          else out
        let element := (path.drop r).takeWhile (fun c => !IsPathSeparator c)
        cleanLoop path rooted fuel (r + element.length) dotdot (out ++ element)
    else
      out

/-- The function `filepath.Clean` on Unix. -/
def Clean (path : GoString) : GoString :=
  if path == [] then
    ['.']
  else
    let rooted := IsPathSeparator (byteAt path 0)
    let out :=
      if rooted then cleanLoop path rooted path.length 1 1 ['/']
      else cleanLoop path rooted path.length 0 0 []
    -- Turn empty string into "."
    if out.length == 0 then ['.'] else out

/-- The function `filepath.Join` for two elements: the first non-empty element
onward, joined with the separator, then cleaned; `""` if both are empty. -/
def Join (a : GoString) (b : GoString) : GoString :=
  if a != [] then Clean (a ++ ['/'] ++ b)
  else if b != [] then Clean b
  else []

/-- The loop of `Rel` that positions `base[b0:bi]` and `targ[t0:ti]` at the
first differing elements; the result is `(b0, bi, t0, ti)` when the loop is
left.  Every iteration that does not leave the loop advances `bi`. -/
def relLoop (base : GoString) (targ : GoString) :
    Nat → Nat → Nat → Nat → Nat → Nat × Nat × Nat × Nat
  | 0, b0, bi, t0, ti => (b0, bi, t0, ti)
  | fuel + 1, b0, bi, t0, ti =>
    let bl := base.length
    let tl := targ.length
    if bi < bl && ti < tl then
      let b0 := bi
      let bi := bi + ((base.drop bi).takeWhile (fun c => c != '/')).length
      let t0 := ti
      let ti := ti + ((targ.drop ti).takeWhile (fun c => c != '/')).length
      if ((targ.drop t0).take (ti - t0)) != ((base.drop b0).take (bi - b0)) then
        (b0, bi, t0, ti)
      else
        let bi := if bi < bl then bi + 1 else bi
        let ti := if ti < tl then ti + 1 else ti
        relLoop base targ fuel bi bi ti ti
    else
      (b0, bi, t0, ti)

/-- The function `filepath.Rel` on Unix; `none` is the error result. -/
def Rel (basepath : GoString) (targpath : GoString) : Option GoString :=
  let base := Clean basepath
  let targ := Clean targpath
  if targ == base then
    some ['.']
  else
    let base := if base == ['.'] then [] else base
    let baseSlashed := base.length > 0 && byteAt base 0 == '/'
    let targSlashed := targ.length > 0 && byteAt targ 0 == '/'
    if baseSlashed != targSlashed then
      none
    else
      let bl := base.length
      let tl := targ.length
      let (b0, bi, t0, _) := relLoop base targ (bl + 1) 0 0 0 0
      if ((base.drop b0).take (bi - b0)) == ['.', '.'] then
        none
      else if b0 != bl then
        -- Base elements left. Must go up before going down.
        let seps := ((base.drop b0).take (bl - b0)).count '/'
        let buf := ['.', '.'] ++ (List.replicate seps ['/', '.', '.']).flatten
        let buf := if t0 != tl then buf ++ ['/'] ++ targ.drop t0 else buf
        some buf
      else
        some (targ.drop t0)

/-! #### Paths by their elements

The words in which the facts about `Clean`, `Join` and `Rel` are stated and
proved: the elements of a path, and the clean paths with given elements. -/

/-- The function `strings.Join(elements, "/")`. -/
def joinSegments : List GoString → GoString
  | [] => []
  | [s] => s
  | s :: t :: rest => s ++ '/' :: joinSegments (t :: rest)

/-- The function `strings.Split(path, "/")`: the elements between the
separators of a path. -/
def splitSegments : GoString → List GoString
  | [] => [[]]
  | c :: rest =>
    if IsPathSeparator c then [] :: splitSegments rest
    else
      match splitSegments rest with
      | [] => [[c]]
      | s :: t => (c :: s) :: t

/-- A path element that names a file or directory: not empty, without a
separator, and neither `.` nor `..`. -/
def IsName (s : GoString) : Bool :=
  !s.isEmpty && s.all (fun c => !IsPathSeparator c) && s != ['.'] && s != ['.', '.']

/-- The leading `..` elements of a relative clean path. -/
def ups (k : Nat) : List GoString := List.replicate k ['.', '.']

/-- The clean path with the given elements: `/` followed by the elements for a
rooted path; the elements, or `.` when there are none, for a relative one. -/
def cleanPath (rooted : Bool) (elements : List GoString) : GoString :=
  if rooted then '/' :: joinSegments elements
  else if elements.isEmpty then ['.'] else joinSegments elements

/-- A root given by its elements, with or without a leading separator and with
or without a trailing one. -/
def rootPath (rooted : Bool) (trailing : Bool) (elements : List GoString) : GoString :=
  (if rooted then ['/'] else []) ++ joinSegments elements ++ (if trailing then ['/'] else [])

/-- What one path element does to the elements `Clean` has kept so far, the
count of leading `..` elements and the names after them: an empty element and
`.` are skipped, `..` removes the last name, or is kept in a relative path that
has no name left, or is dropped at the root, and a name is added. -/
def cleanStep (rooted : Bool) (kept : Nat × List GoString) (element : GoString) :
    Nat × List GoString :=
  if element.isEmpty || element == ['.'] then kept
  else if element == ['.', '.'] then
    if !kept.2.isEmpty then (kept.1, kept.2.dropLast)
    else if !rooted then (kept.1 + 1, [])
    else kept
  else (kept.1, kept.2 ++ [element])

/-- What `Clean` has written when it has kept the given elements. -/
def written (rooted : Bool) (kept : Nat × List GoString) : GoString :=
  (if rooted then ['/'] else []) ++ joinSegments (ups kept.1 ++ kept.2)

end Filepath

/-- The watcher's collaborators with Go's `filepath.Rel` as `Rel` (its string
result is `""` when it returns an error) and a given temporary-name test. -/
def goEnv (isTemporary : GoString → Bool) : Env :=
  { Rel := fun basepath targpath => (Filepath.Rel basepath targpath).getD []
    IsTemporary := isTemporary }

/-- The collaborators of the scenarios: Go's `filepath.Rel`, and a temporary-name
test that recognises the one name `~tmp123`. -/
def scenarioEnv : Env := goEnv (fun path => path == "~tmp123".toList)

/-- The watcher of the scenarios: root `/r`, nothing ignored. -/
def scenarioWatcher : FsWatcher := NewFsWatcher "/r".toList (fun _ => false)

/-- The watcher of the scenarios after `ItemStarted` for `docs/report.txt`. -/
def scenarioInProgress : FsWatcher :=
  updateInProgressSet scenarioWatcher ⟨EventType.ItemStarted, "docs/report.txt".toList⟩

/-- Scenario E: raw events for `/r/a.txt` and `/r/b.txt`, no timer fire between. -/
def scenarioBurst : List Select :=
  [Select.fsEvent "/r/a.txt".toList, Select.fsEvent "/r/b.txt".toList]

/-- The scenario watcher, started, as it enters the loop of `watchFilesystem`. -/
def scenarioLoopStart : FsWatcher :=
  newNotifyTimer (StartWatchingFilesystem scenarioWatcher true)

/-- The scenario watcher after a timer fire that found nothing pending. -/
def scenarioAfterIdleFire : FsWatcher :=
  applyStep scenarioEnv scenarioLoopStart (LoopStep.select Select.timer)

/-- The scenario watcher after a raw event for `/r/a.txt` and a timer fire. -/
def scenarioDelivered : FsWatcher :=
  applyStep scenarioEnv
    (applyStep scenarioEnv scenarioLoopStart (LoopStep.select (Select.fsEvent "/r/a.txt".toList)))
    (LoopStep.select Select.timer)

/-- The watcher with `docs/report.txt` in progress, idle at the slow delay. -/
def scenarioSlowInProgress : FsWatcher := actOnTimer scenarioInProgress

end Fswatcher

namespace Model

open Fswatcher (Duration Second Millisecond)

/-- The value of an `int64` expression whose mathematical value is `x`:
two's-complement wrap-around into `[-2^63, 2^63)`. -/
def wrapInt64 (x : Int) : Int := (x + 2 ^ 63) % 2 ^ 64 - 2 ^ 63

/-- The two fields of `config.FolderConfiguration` that `newFolderScanner`
reads; both are Go `int`s. -/
structure FolderConfiguration where
  RescanIntervalS : Int
  LongRescanIntervalS : Int
deriving DecidableEq, Repr

/-- The struct `folderScanner`.  The field `timer` lists the durations the
timer has been armed with (by `time.NewTimer` or `Reset`), latest first; the
channels `now` and `delay` carry no state of their own. -/
structure folderScanner where
  interval : Duration
  longInterval : Duration
  timer : List Duration
deriving DecidableEq, Repr

/-- The constructor `newFolderScanner`. -/
def newFolderScanner (config : FolderConfiguration) : folderScanner :=
  { interval := wrapInt64 (config.RescanIntervalS * Second)
    longInterval := wrapInt64 (config.LongRescanIntervalS * Second)
    timer := [Millisecond] }

/-- The method `reschedule`.  The argument `r` is the value `rand.Int63n`
returns; `rand.Int63n(n)` panics when `n <= 0`, which is the result `none`.
Go's `/` on `int64` truncates toward zero (`Int.tdiv`). -/
def folderScanner.reschedule (f : folderScanner) (interval : Duration) (r : Int) :
    Option folderScanner :=
  if interval == 0 then
    some f
  else
    let n := wrapInt64 (2 * interval)
    if n ≤ 0 then
      none
    else
      let sleepNanos := (wrapInt64 (wrapInt64 (interval * 3) + r)).tdiv 4
      let randInterval := wrapInt64 (sleepNanos * 1)
      some { f with timer := randInterval :: f.timer }

/-- The method `LongReschedule`. -/
def folderScanner.LongReschedule (f : folderScanner) (r : Int) : Option folderScanner :=
  f.reschedule f.longInterval r

/-- The method `Reschedule`. -/
def folderScanner.Reschedule (f : folderScanner) (r : Int) : Option folderScanner :=
  f.reschedule f.interval r

/-- The method `HasNoInterval`. -/
def folderScanner.HasNoInterval (f : folderScanner) : Bool :=
  f.interval == 0

/-- A scanner with a one-minute short and a one-hour long rescan interval. -/
def scenarioScanner : folderScanner := newFolderScanner ⟨60, 3600⟩

/-- A scanner with automatic rescanning switched off. -/
def scenarioIdleScanner : folderScanner := newFolderScanner ⟨0, 0⟩

end Model

/-! ## Theorems -/

namespace Fswatcher

/-! ### Facts about the map model -/

/-- Keys that survive the removal of key `k`. -/
theorem FsEventsBatch.mem_keys_filter (b : FsEventsBatch) (k p : GoString) :
    p ∈ (b.filter (fun e => e.1 != k)).map Prod.fst ↔ p ≠ k ∧ p ∈ b.map Prod.fst := by
  induction b with
  | nil => simp
  | cons e rest ih =>
    by_cases hk : e.1 = k
    · have hf : (e.1 != k) = false := by simp [hk]
      rw [List.filter_cons_of_neg (p := fun e : GoString × FsEvent => e.1 != k) (by simp [hf]), ih]
      simp only [List.map_cons, List.mem_cons]
      constructor
      · rintro ⟨h1, h2⟩
        exact ⟨h1, Or.inr h2⟩
      · rintro ⟨h1, h2 | h2⟩
        · exact absurd (h2.trans hk) h1
        · exact ⟨h1, h2⟩
    · have hf : (e.1 != k) = true := by simp [hk]
      rw [List.filter_cons_of_pos (p := fun e : GoString × FsEvent => e.1 != k) hf]
      simp only [List.map_cons, List.mem_cons, ih]
      constructor
      · rintro (h | ⟨h1, h2⟩)
        · exact ⟨fun hp => hk (h ▸ hp), Or.inl h⟩
        · exact ⟨h1, Or.inr h2⟩
      · rintro ⟨h1, h2 | h2⟩
        · exact Or.inl h2
        · exact Or.inr ⟨h1, h2⟩

/-- The keys after the assignment `b[k] = v`. -/
theorem FsEventsBatch.mem_keys_set (b : FsEventsBatch) (k p : GoString) (v : FsEvent) :
    p ∈ (b.set k v).keys ↔ p = k ∨ p ∈ b.keys := by
  simp only [FsEventsBatch.set, FsEventsBatch.keys, List.map_cons, List.mem_cons,
    FsEventsBatch.mem_keys_filter]
  constructor
  · rintro (h | ⟨_, h⟩)
    · exact Or.inl h
    · exact Or.inr h
  · rintro (h | h)
    · exact Or.inl h
    · by_cases hp : p = k
      · exact Or.inl hp
      · exact Or.inr ⟨hp, h⟩

/-- Reading back the key just assigned. -/
theorem FsEventsBatch.get?_set_self (b : FsEventsBatch) (k : GoString) (v : FsEvent) :
    (b.set k v).get? k = some v := by
  simp [FsEventsBatch.set, FsEventsBatch.get?]

/-- The key just assigned has one entry. -/
theorem FsEventsBatch.count_keys_set_self (b : FsEventsBatch) (k : GoString) (v : FsEvent) :
    (b.set k v).keys.count k = 1 := by
  have h : k ∉ (b.filter (fun e => e.1 != k)).map Prod.fst := by
    rw [FsEventsBatch.mem_keys_filter]
    exact fun h => h.1 rfl
  simp only [FsEventsBatch.set, FsEventsBatch.keys, List.map_cons, List.count_cons_self]
  rw [List.count_eq_zero_of_not_mem h]

/-- Assigning the same entry twice is assigning it once. -/
theorem FsEventsBatch.set_set (b : FsEventsBatch) (k : GoString) (v : FsEvent) :
    (b.set k v).set k v = b.set k v := by
  have h : (k != k) = false := by simp
  simp only [FsEventsBatch.set, List.filter_cons, h, List.filter_filter, Bool.and_self]
  simp

/-! ### Facts about the watcher's methods -/

/-- Storing an event whose path is not in progress assigns it in the batch. -/
theorem storeFsEvent_of_not_inProgress (w : FsWatcher) (event : FsEvent)
    (h : pathInProgress w event.path = false) :
    storeFsEvent w event = { w with fsEvents := w.fsEvents.set event.path event } := by
  simp [storeFsEvent, h]

/-- What `resetNotifyTimerIfNeeded` leaves alone. -/
theorem resetNotifyTimerIfNeeded_frame (w : FsWatcher) :
    (resetNotifyTimerIfNeeded w).folderPath = w.folderPath ∧
    (resetNotifyTimerIfNeeded w).ignores = w.ignores ∧
    (resetNotifyTimerIfNeeded w).inProgress = w.inProgress ∧
    (resetNotifyTimerIfNeeded w).fsEvents = w.fsEvents ∧
    (resetNotifyTimerIfNeeded w).notifyModelChan = w.notifyModelChan ∧
    (resetNotifyTimerIfNeeded w).notifyDelay = w.notifyDelay := by
  unfold resetNotifyTimerIfNeeded
  split <;> exact ⟨rfl, rfl, rfl, rfl, rfl, rfl⟩

/-- What `speedUpNotifyTimer` leaves alone. -/
theorem speedUpNotifyTimer_frame (w : FsWatcher) :
    (speedUpNotifyTimer w).folderPath = w.folderPath ∧
    (speedUpNotifyTimer w).ignores = w.ignores ∧
    (speedUpNotifyTimer w).inProgress = w.inProgress ∧
    (speedUpNotifyTimer w).fsEvents = w.fsEvents ∧
    (speedUpNotifyTimer w).notifyModelChan = w.notifyModelChan := by
  unfold speedUpNotifyTimer
  split <;> exact ⟨rfl, rfl, rfl, rfl, rfl⟩

/-- What `storeFsEvent` leaves alone. -/
theorem storeFsEvent_frame (w : FsWatcher) (event : FsEvent) :
    (storeFsEvent w event).folderPath = w.folderPath ∧
    (storeFsEvent w event).ignores = w.ignores ∧
    (storeFsEvent w event).inProgress = w.inProgress ∧
    (storeFsEvent w event).notifyModelChan = w.notifyModelChan := by
  unfold storeFsEvent
  split <;> exact ⟨rfl, rfl, rfl, rfl⟩

/-- What `updateInProgressSet` leaves alone. -/
theorem updateInProgressSet_frame (w : FsWatcher) (event : Event) :
    (updateInProgressSet w event).folderPath = w.folderPath ∧
    (updateInProgressSet w event).ignores = w.ignores ∧
    (updateInProgressSet w event).fsEvents = w.fsEvents ∧
    (updateInProgressSet w event).notifyModelChan = w.notifyModelChan := by
  unfold updateInProgressSet
  split <;> exact ⟨rfl, rfl, rfl, rfl⟩

/-- The method `newFsEvent` reads only the root and the ignore matcher. -/
theorem newFsEvent_congr (env : Env) (w w2 : FsWatcher) (eventPath : GoString)
    (hf : w2.folderPath = w.folderPath) (hi : w2.ignores = w.ignores) :
    newFsEvent env w2 eventPath = newFsEvent env w eventPath := by
  simp [newFsEvent, shouldIgnore, hf, hi]

/-- The raw-event case leaves the root, the matcher, the registry and the
sent batches alone. -/
theorem onFsEvent_frame (env : Env) (w : FsWatcher) (eventPath : GoString) :
    (onFsEvent env w eventPath).folderPath = w.folderPath ∧
    (onFsEvent env w eventPath).ignores = w.ignores ∧
    (onFsEvent env w eventPath).inProgress = w.inProgress ∧
    (onFsEvent env w eventPath).notifyModelChan = w.notifyModelChan := by
  unfold onFsEvent
  split
  · have h1 := storeFsEvent_frame (speedUpNotifyTimer w) ‹FsEvent›
    have h2 := speedUpNotifyTimer_frame w
    exact ⟨h1.1.trans h2.1, h1.2.1.trans h2.2.1, h1.2.2.1.trans h2.2.2.1,
      h1.2.2.2.trans h2.2.2.2.2⟩
  · exact ⟨rfl, rfl, rfl, rfl⟩

/-- The pending batch after the raw-event case: the relative path is assigned
when the event is inside the root, passes the filter and is not in progress;
otherwise the batch is as before. -/
theorem onFsEvent_fsEvents (env : Env) (w : FsWatcher) (eventPath : GoString) :
    (onFsEvent env w eventPath).fsEvents =
      if isSubpath eventPath w.folderPath = true ∧
          shouldIgnore env w (env.Rel w.folderPath eventPath) = false ∧
          pathInProgress w (env.Rel w.folderPath eventPath) = false then
        w.fsEvents.set (env.Rel w.folderPath eventPath) ⟨env.Rel w.folderPath eventPath⟩
      else w.fsEvents := by
  have h2 := speedUpNotifyTimer_frame w
  by_cases hsub : isSubpath eventPath w.folderPath = true
  · by_cases hign : shouldIgnore env w (env.Rel w.folderPath eventPath) = false
    · have hnew : newFsEvent env w eventPath = some ⟨env.Rel w.folderPath eventPath⟩ := by
        simp [newFsEvent, hsub, hign]
      by_cases hprog : pathInProgress w (env.Rel w.folderPath eventPath) = false
      · have hprog2 : pathInProgress (speedUpNotifyTimer w)
            (FsEvent.mk (env.Rel w.folderPath eventPath)).path = false := by
          simpa [pathInProgress, h2.2.2.1] using hprog
        rw [if_pos ⟨hsub, hign, hprog⟩]
        simp only [onFsEvent, hnew]
        rw [storeFsEvent_of_not_inProgress _ _ hprog2]
        simp [h2.2.2.2.1]
      · have hprog2 : pathInProgress (speedUpNotifyTimer w)
            (FsEvent.mk (env.Rel w.folderPath eventPath)).path = true := by
          simpa [pathInProgress, h2.2.2.1] using hprog
        rw [if_neg (fun h => hprog h.2.2)]
        simp only [onFsEvent, hnew, storeFsEvent, hprog2, if_true]
        exact h2.2.2.2.1
    · have hnew : newFsEvent env w eventPath = none := by
        simp only [Bool.not_eq_false] at hign
        simp [newFsEvent, hsub, hign]
      rw [if_neg (fun h => hign h.2.1)]
      simp [onFsEvent, hnew]
  · have hnew : newFsEvent env w eventPath = none := by
      simp [newFsEvent, hsub]
    rw [if_neg (fun h => hsub h.1)]
    simp [onFsEvent, hnew]

/-- One loop iteration leaves the root and the matcher alone. -/
theorem loopIteration_frame (env : Env) (w : FsWatcher) (s : Select) :
    (loopIteration env w s).folderPath = w.folderPath ∧
    (loopIteration env w s).ignores = w.ignores := by
  have hr := resetNotifyTimerIfNeeded_frame w
  cases s with
  | fsEvent e =>
    have h := onFsEvent_frame env (resetNotifyTimerIfNeeded w) e
    exact ⟨h.1.trans hr.1, h.2.1.trans hr.2.1⟩
  | timer =>
    constructor
    · show (actOnTimer (resetNotifyTimerIfNeeded w)).folderPath = _
      rw [← hr.1]
      simp only [actOnTimer, slowDownNotifyTimer]
      split
      · rfl
      · split <;> rfl
    · show (actOnTimer (resetNotifyTimerIfNeeded w)).ignores = _
      rw [← hr.2.1]
      simp only [actOnTimer, slowDownNotifyTimer]
      split
      · rfl
      · split <;> rfl
  | item ev =>
    have h := updateInProgressSet_frame (resetNotifyTimerIfNeeded w) ev
    exact ⟨h.1.trans hr.1, h.2.1.trans hr.2.1⟩

/-- The pending batch and the registry after a raw-event iteration. -/
theorem loopIteration_fsEvent (env : Env) (w : FsWatcher) (e : GoString) :
    (loopIteration env w (Select.fsEvent e)).fsEvents =
      (if isSubpath e w.folderPath = true ∧
          shouldIgnore env w (env.Rel w.folderPath e) = false ∧
          pathInProgress w (env.Rel w.folderPath e) = false then
        w.fsEvents.set (env.Rel w.folderPath e) ⟨env.Rel w.folderPath e⟩
      else w.fsEvents) ∧
    (loopIteration env w (Select.fsEvent e)).inProgress = w.inProgress ∧
    (loopIteration env w (Select.fsEvent e)).notifyModelChan = w.notifyModelChan := by
  have hr := resetNotifyTimerIfNeeded_frame w
  have h := onFsEvent_frame env (resetNotifyTimerIfNeeded w) e
  have hf := onFsEvent_fsEvents env (resetNotifyTimerIfNeeded w) e
  refine ⟨?_, h.2.2.1.trans hr.2.2.1, h.2.2.2.trans hr.2.2.2.2.1⟩
  show (onFsEvent env (resetNotifyTimerIfNeeded w) e).fsEvents = _
  rw [hf]
  simp only [shouldIgnore, pathInProgress, hr.1, hr.2.1, hr.2.2.1, hr.2.2.2.1]

/-- The pending batch and the registry after an item-lifecycle iteration. -/
theorem loopIteration_item (env : Env) (w : FsWatcher) (ev : Event) :
    (loopIteration env w (Select.item ev)).fsEvents = w.fsEvents ∧
    (loopIteration env w (Select.item ev)).notifyModelChan = w.notifyModelChan ∧
    (loopIteration env w (Select.item ev)).inProgress =
      (updateInProgressSet w ev).inProgress := by
  have hr := resetNotifyTimerIfNeeded_frame w
  have h := updateInProgressSet_frame (resetNotifyTimerIfNeeded w) ev
  refine ⟨h.2.2.1.trans hr.2.2.2.1, h.2.2.2.trans hr.2.2.2.2.1, ?_⟩
  show (updateInProgressSet (resetNotifyTimerIfNeeded w) ev).inProgress = _
  unfold updateInProgressSet
  split <;> simp only [hr.2.2.1]

/-- What a timer iteration sends, and the batch it leaves. -/
theorem loopIteration_timer (env : Env) (w : FsWatcher) :
    (loopIteration env w Select.timer).notifyModelChan =
      w.notifyModelChan ++ (if w.fsEvents.len > 0 then [w.fsEvents] else []) ∧
    (loopIteration env w Select.timer).fsEvents = [] ∧
    (loopIteration env w Select.timer).inProgress = w.inProgress := by
  have hr := resetNotifyTimerIfNeeded_frame w
  show (actOnTimer (resetNotifyTimerIfNeeded w)).notifyModelChan = _ ∧
    (actOnTimer (resetNotifyTimerIfNeeded w)).fsEvents = _ ∧
    (actOnTimer (resetNotifyTimerIfNeeded w)).inProgress = _
  rw [← hr.2.2.2.1, ← hr.2.2.2.2.1, ← hr.2.2.1]
  generalize resetNotifyTimerIfNeeded w = v
  by_cases h : v.fsEvents.len > 0
  · simp [actOnTimer, h]
  · refine ⟨?_, ?_, ?_⟩
    · simp only [actOnTimer, h, slowDownNotifyTimer, if_false, List.append_nil]
      split <;> rfl
    · simp [actOnTimer]
    · simp only [actOnTimer, h, slowDownNotifyTimer, if_false]
      split <;> rfl

/-- Running the loop over a first input and the rest. -/
theorem runLoop_cons (env : Env) (w : FsWatcher) (s : Select) (rest : List Select) :
    runLoop env w (s :: rest) = runLoop env (loopIteration env w s) rest := rfl

/-- Running the loop over two stretches of input. -/
theorem runLoop_append (env : Env) (w : FsWatcher) (xs ys : List Select) :
    runLoop env w (xs ++ ys) = runLoop env (runLoop env w xs) ys := by
  simp [runLoop, List.foldl_append]

/-- The loop leaves the root and the matcher alone. -/
theorem runLoop_frame (env : Env) (w : FsWatcher) (inputs : List Select) :
    (runLoop env w inputs).folderPath = w.folderPath ∧
    (runLoop env w inputs).ignores = w.ignores := by
  induction inputs generalizing w with
  | nil => exact ⟨rfl, rfl⟩
  | cons s rest ih =>
    rw [runLoop_cons]
    have h := loopIteration_frame env w s
    exact ⟨(ih _).1.trans h.1, (ih _).2.trans h.2⟩

/-- Without a timer fire the loop sends nothing. -/
theorem runLoop_notifyModelChan (env : Env) (w : FsWatcher) (inputs : List Select)
    (hnt : Select.timer ∉ inputs) :
    (runLoop env w inputs).notifyModelChan = w.notifyModelChan := by
  induction inputs generalizing w with
  | nil => rfl
  | cons s rest ih =>
    rw [runLoop_cons, ih _ (fun h => hnt (List.mem_cons_of_mem _ h))]
    cases s with
    | fsEvent e => exact (loopIteration_fsEvent env w e).2.2
    | timer => exact absurd (List.mem_cons_self _ _) hnt
    | item ev => exact (loopIteration_item env w ev).2.1

/-- The keys of the pending batch after a stretch of input without a timer
fire: the keys it had, and the relative path of every raw event that was
inside the root, passed the filter and was not in progress when processed. -/
theorem runLoop_keys (env : Env) (w : FsWatcher) (inputs : List Select)
    (hnt : Select.timer ∉ inputs) (p : GoString) :
    p ∈ (runLoop env w inputs).fsEvents.keys ↔
      p ∈ w.fsEvents.keys ∨
      ∃ pre e post, inputs = pre ++ Select.fsEvent e :: post ∧
        isSubpath e w.folderPath = true ∧
        shouldIgnore env w (env.Rel w.folderPath e) = false ∧
        env.Rel w.folderPath e = p ∧
        pathInProgress (runLoop env w pre) p = false := by
  induction inputs generalizing w with
  | nil =>
    constructor
    · intro h
      exact Or.inl h
    · rintro (h | ⟨pre, e, post, h, _⟩)
      · exact h
      · exact absurd h (by simp)
  | cons s rest ih =>
    have hnt2 : Select.timer ∉ rest := fun h => hnt (List.mem_cons_of_mem _ h)
    have hfr := loopIteration_frame env w s
    have hign : ∀ x, shouldIgnore env (loopIteration env w s) x = shouldIgnore env w x := by
      intro x
      simp [shouldIgnore, hfr.2]
    rw [runLoop_cons, ih _ hnt2]
    simp only [hfr.1, hign]
    constructor
    · rintro (h | ⟨pre, e, post, hsplit, h1, h2, h3, h4⟩)
      · cases s with
        | fsEvent e0 =>
          rw [(loopIteration_fsEvent env w e0).1] at h
          split at h
          · next hc =>
            rcases (FsEventsBatch.mem_keys_set _ _ _ _).mp h with hp | hp
            · refine Or.inr ⟨[], e0, rest, rfl, hc.1, hc.2.1, hp.symm, ?_⟩
              rw [hp]
              exact hc.2.2
            · exact Or.inl hp
          · exact Or.inl h
        | timer => exact absurd (List.mem_cons_self _ _) hnt
        | item ev =>
          rw [(loopIteration_item env w ev).1] at h
          exact Or.inl h
      · refine Or.inr ⟨s :: pre, e, post, ?_, h1, h2, h3, ?_⟩
        · rw [hsplit]; rfl
        · rw [runLoop_cons]; exact h4
    · rintro (h | ⟨pre, e, post, hsplit, h1, h2, h3, h4⟩)
      · left
        cases s with
        | fsEvent e0 =>
          rw [(loopIteration_fsEvent env w e0).1]
          split
          · exact (FsEventsBatch.mem_keys_set _ _ _ _).mpr (Or.inr h)
          · exact h
        | timer => exact absurd (List.mem_cons_self _ _) hnt
        | item ev =>
          rw [(loopIteration_item env w ev).1]
          exact h
      · cases pre with
        | nil =>
          left
          simp only [List.nil_append, List.cons.injEq] at hsplit
          obtain ⟨hs, _⟩ := hsplit
          subst hs
          rw [(loopIteration_fsEvent env w e).1, if_pos ⟨h1, h2, by rw [h3]; exact h4⟩]
          exact (FsEventsBatch.mem_keys_set _ _ _ _).mpr (Or.inl h3.symm)
        | cons s2 pre2 =>
          right
          simp only [List.cons_append, List.cons.injEq] at hsplit
          obtain ⟨hs, hrest⟩ := hsplit
          subst hs
          exact ⟨pre2, e, post, hrest, h1, h2, h3, h4⟩

/-- After `ItemStarted` for a path, the path is in progress. -/
theorem pathInProgress_started (w : FsWatcher) (p : GoString) :
    pathInProgress (updateInProgressSet w ⟨EventType.ItemStarted, p⟩) p = true := by
  by_cases h : p ∈ w.inProgress
  · simp [pathInProgress, updateInProgressSet, h]
  · simp [pathInProgress, updateInProgressSet, h]

/-- After `ItemFinished` for a path, the path is not in progress. -/
theorem pathInProgress_finished (w : FsWatcher) (p : GoString) :
    pathInProgress (updateInProgressSet w ⟨EventType.ItemFinished, p⟩) p = false := by
  simp [pathInProgress, updateInProgressSet]

/-- The method `pathInProgress` reads only the registry. -/
theorem pathInProgress_congr (w w2 : FsWatcher) (p : GoString)
    (h : w2.inProgress = w.inProgress) : pathInProgress w2 p = pathInProgress w p := by
  simp [pathInProgress, h]

/-- The method `shouldIgnore` reads only the matcher. -/
theorem shouldIgnore_congr (env : Env) (w w2 : FsWatcher) (p : GoString)
    (h : w2.ignores = w.ignores) : shouldIgnore env w2 p = shouldIgnore env w p := by
  simp [shouldIgnore, h]

/-- The debounce fields after `speedUpNotifyTimer`. -/
theorem speedUpNotifyTimer_debounce (w : FsWatcher) :
    (speedUpNotifyTimer w).notifyDelay = fastNotifyDelay ∧
    (speedUpNotifyTimer w).notifyTimer = w.notifyTimer ∧
    (w.notifyDelay ≠ fastNotifyDelay → (speedUpNotifyTimer w).notifyTimerNeedsReset = true) ∧
    (w.notifyDelay = fastNotifyDelay →
      (speedUpNotifyTimer w).notifyTimerNeedsReset = w.notifyTimerNeedsReset) := by
  unfold speedUpNotifyTimer
  by_cases h : w.notifyDelay = fastNotifyDelay
  · simp [h]
  · simp [h]

/-- The method `storeFsEvent` leaves the debounce fields alone. -/
theorem storeFsEvent_debounce (w : FsWatcher) (event : FsEvent) :
    (storeFsEvent w event).notifyDelay = w.notifyDelay ∧
    (storeFsEvent w event).notifyTimer = w.notifyTimer ∧
    (storeFsEvent w event).notifyTimerNeedsReset = w.notifyTimerNeedsReset := by
  unfold storeFsEvent
  split <;> exact ⟨rfl, rfl, rfl⟩

/-- The method `updateInProgressSet` leaves the debounce fields alone. -/
theorem updateInProgressSet_debounce (w : FsWatcher) (event : Event) :
    (updateInProgressSet w event).notifyDelay = w.notifyDelay ∧
    (updateInProgressSet w event).notifyTimer = w.notifyTimer ∧
    (updateInProgressSet w event).notifyTimerNeedsReset = w.notifyTimerNeedsReset := by
  unfold updateInProgressSet
  split <;> exact ⟨rfl, rfl, rfl⟩

/-- The debounce fields after the raw-event case: untouched when `newFsEvent`
returns nil, sped up otherwise. -/
theorem onFsEvent_debounce (env : Env) (w : FsWatcher) (eventPath : GoString) :
    (onFsEvent env w eventPath).notifyTimer = w.notifyTimer ∧
    (newFsEvent env w eventPath = none → onFsEvent env w eventPath = w) ∧
    (newFsEvent env w eventPath ≠ none →
      (onFsEvent env w eventPath).notifyDelay = fastNotifyDelay ∧
      (w.notifyDelay ≠ fastNotifyDelay →
        (onFsEvent env w eventPath).notifyTimerNeedsReset = true) ∧
      (w.notifyDelay = fastNotifyDelay →
        (onFsEvent env w eventPath).notifyTimerNeedsReset = w.notifyTimerNeedsReset)) := by
  cases h : newFsEvent env w eventPath with
  | none =>
    have hw : onFsEvent env w eventPath = w := by simp [onFsEvent, h]
    exact ⟨by rw [hw], fun _ => hw, fun hc => absurd rfl hc⟩
  | some ev =>
    have hw : onFsEvent env w eventPath = storeFsEvent (speedUpNotifyTimer w) ev := by
      simp [onFsEvent, h]
    have hs := storeFsEvent_debounce (speedUpNotifyTimer w) ev
    have hu := speedUpNotifyTimer_debounce w
    rw [hw]
    refine ⟨hs.2.1.trans hu.2.1, fun hc => Option.noConfusion hc, fun _ => ?_⟩
    exact ⟨hs.1.trans hu.1, fun hd => hs.2.2.trans (hu.2.2.1 hd),
      fun hd => hs.2.2.trans (hu.2.2.2 hd)⟩

/-- The debounce fields and the batch after `actOnTimer`. -/
theorem actOnTimer_debounce (w : FsWatcher) :
    (actOnTimer w).notifyTimer = w.notifyTimer ∧
    (actOnTimer w).notifyTimerNeedsReset = true ∧
    (actOnTimer w).fsEvents = [] ∧
    (w.fsEvents ≠ [] → (actOnTimer w).notifyDelay = w.notifyDelay) ∧
    (w.fsEvents = [] → (actOnTimer w).notifyDelay = slowNotifyDelay) := by
  refine ⟨?_, ?_, ?_, ?_, ?_⟩
  · simp only [actOnTimer, slowDownNotifyTimer]
    split
    · rfl
    · split <;> rfl
  · simp only [actOnTimer, slowDownNotifyTimer]
    split
    · rfl
    · split <;> rfl
  · simp [actOnTimer]
  · intro h
    have hl : 0 < w.fsEvents.length := List.length_pos.mpr h
    simp [actOnTimer, FsEventsBatch.len, hl]
  · intro h
    simp only [actOnTimer, FsEventsBatch.len, h, List.length_nil, lt_self_iff_false,
      if_false, slowDownNotifyTimer]
    split <;> simp_all

/-- The debounce fields after `resetNotifyTimerIfNeeded`. -/
theorem resetNotifyTimerIfNeeded_debounce (w : FsWatcher) :
    (resetNotifyTimerIfNeeded w).notifyTimerNeedsReset = false ∧
    (w.notifyTimerNeedsReset = true →
      (resetNotifyTimerIfNeeded w).notifyTimer = some w.notifyDelay) ∧
    (w.notifyTimerNeedsReset = false → resetNotifyTimerIfNeeded w = w) := by
  unfold resetNotifyTimerIfNeeded
  cases h : w.notifyTimerNeedsReset <;> simp [h]

/-- The invariant of the debounce state: the delay is the fast or the slow
one, a non-empty pending batch goes with the fast delay, and a timer that needs
no reset is armed with the current delay. -/
theorem reachable_debounce (env : Env) (w : FsWatcher) (h : Reachable env w) :
    (w.notifyDelay = fastNotifyDelay ∨ w.notifyDelay = slowNotifyDelay) ∧
    (w.fsEvents ≠ [] → w.notifyDelay = fastNotifyDelay) ∧
    (w.notifyTimerNeedsReset = false → w.notifyTimer = some w.notifyDelay) := by
  induction h with
  | start folderPath ignores =>
    exact ⟨Or.inl rfl, fun _ => rfl, fun _ => rfl⟩
  | updateIgnores w ignores _ ih => exact ih
  | step w st _ ih =>
    obtain ⟨ih1, ih2, ih3⟩ := ih
    cases st with
    | reset =>
      have hr := resetNotifyTimerIfNeeded_debounce w
      have hf := resetNotifyTimerIfNeeded_frame w
      simp only [applyStep]
      refine ⟨?_, ?_, ?_⟩
      · rw [hf.2.2.2.2.2]; exact ih1
      · rw [hf.2.2.2.1, hf.2.2.2.2.2]; exact ih2
      · intro _
        cases hn : w.notifyTimerNeedsReset
        · rw [hr.2.2 hn]; exact ih3 hn
        · rw [hr.2.1 hn, hf.2.2.2.2.2]
    | select s =>
      cases s with
      | fsEvent e =>
        simp only [applyStep, selectCase]
        have hd := onFsEvent_debounce env w e
        by_cases hn : newFsEvent env w e = none
        · rw [hd.2.1 hn]; exact ⟨ih1, ih2, ih3⟩
        · obtain ⟨h1, h2, h3⟩ := hd.2.2 hn
          refine ⟨Or.inl h1, fun _ => h1, ?_⟩
          intro hreset
          rw [hd.1, h1]
          by_cases hfast : w.notifyDelay = fastNotifyDelay
          · rw [h3 hfast] at hreset
            rw [ih3 hreset, hfast]
          · rw [h2 hfast] at hreset; exact Bool.noConfusion hreset
      | timer =>
        simp only [applyStep, selectCase]
        have ha := actOnTimer_debounce w
        refine ⟨?_, ?_, ?_⟩
        · by_cases he : w.fsEvents = []
          · exact Or.inr (ha.2.2.2.2 he)
          · rw [ha.2.2.2.1 he]; exact ih1
        · intro hne; exact absurd ha.2.2.1 hne
        · intro hreset; rw [ha.2.1] at hreset; exact Bool.noConfusion hreset
      | item ev =>
        simp only [applyStep, selectCase]
        have hu := updateInProgressSet_debounce w ev
        have hf := updateInProgressSet_frame w ev
        rw [hu.1, hu.2.1, hu.2.2, hf.2.2.1]; exact ⟨ih1, ih2, ih3⟩

/-- Membership of another path is untouched by a lifecycle notification. -/
theorem pathInProgress_other (w : FsWatcher) (event : Event) (q : GoString)
    (hq : q ≠ event.item) :
    pathInProgress (updateInProgressSet w event) q = pathInProgress w q := by
  unfold updateInProgressSet pathInProgress
  rcases event with ⟨ty, item⟩
  cases ty
  · simp at hq
    by_cases h : item ∈ w.inProgress
    · simp [h]
    · simp [h, hq]
  · simp at hq
    simp [hq]
  · rfl

/-- A string that does not end in a separator is not stripped. -/
theorem stripTrailingSeparator_of_no_separator (s : GoString)
    (h : s.getLast?.any IsPathSeparator = false) : stripTrailingSeparator s = s := by
  simp [stripTrailingSeparator, h]

/-- The separator appended to a non-empty string is stripped again. -/
theorem stripTrailingSeparator_append (s : GoString) (hs : s ≠ []) :
    stripTrailingSeparator (s ++ ['/']) = s := by
  have hlen : 0 < s.length := List.length_pos.mpr hs
  have h1 : (s ++ ['/']).length > 1 := by simp; omega
  simp [stripTrailingSeparator, IsPathSeparator, hlen]

/-- Assigning a path to its own event keeps every key equal to its stored path. -/
theorem FsEventsBatch.keysArePaths_set (b : FsEventsBatch) (p : GoString)
    (h : b.KeysArePaths) : (b.set p ⟨p⟩).KeysArePaths := by
  intro e he
  simp only [FsEventsBatch.set, List.mem_cons, List.mem_filter] at he
  rcases he with he | ⟨he, _⟩
  · rw [he]
  · exact h e he

/-- Assignment keeps the keys distinct. -/
theorem FsEventsBatch.nodup_keys_set (b : FsEventsBatch) (k : GoString) (v : FsEvent)
    (h : b.keys.Nodup) : (b.set k v).keys.Nodup := by
  have hsub : ((b.filter (fun e => e.1 != k)).map Prod.fst).Sublist (b.map Prod.fst) :=
    (List.filter_sublist b).map Prod.fst
  have hnot : k ∉ (b.filter (fun e => e.1 != k)).map Prod.fst := by
    rw [FsEventsBatch.mem_keys_filter]
    exact fun hc => hc.1 rfl
  simp only [FsEventsBatch.set, FsEventsBatch.keys, List.map_cons]
  exact List.nodup_cons.mpr ⟨hnot, h.sublist hsub⟩

/-- The invariant of the batches: in the pending batch and in every batch
sent, each key is the path stored under it and no key occurs twice. -/
theorem reachable_batches (env : Env) (w : FsWatcher) (h : Reachable env w) :
    (w.fsEvents.KeysArePaths ∧ w.fsEvents.keys.Nodup) ∧
    ∀ B ∈ w.notifyModelChan, B.KeysArePaths ∧ B.keys.Nodup := by
  induction h with
  | start folderPath ignores =>
    refine ⟨⟨fun e he => absurd he (List.not_mem_nil e), List.nodup_nil⟩, ?_⟩
    intro B hB
    exact absurd hB (List.not_mem_nil B)
  | updateIgnores w ignores _ ih => exact ih
  | step w st _ ih =>
    cases st with
    | reset =>
      have hf := resetNotifyTimerIfNeeded_frame w
      simp only [applyStep]
      rw [hf.2.2.2.1, hf.2.2.2.2.1]
      exact ih
    | select s =>
      cases s with
      | fsEvent e =>
        have hf := onFsEvent_frame env w e
        have hb := onFsEvent_fsEvents env w e
        simp only [applyStep, selectCase]
        rw [hf.2.2.2, hb]
        refine ⟨?_, ih.2⟩
        split
        · exact ⟨FsEventsBatch.keysArePaths_set _ _ ih.1.1,
            FsEventsBatch.nodup_keys_set _ _ _ ih.1.2⟩
        · exact ih.1
      | timer =>
        have hc : (actOnTimer w).notifyModelChan =
            w.notifyModelChan ++ (if w.fsEvents.len > 0 then [w.fsEvents] else []) := by
          by_cases hl : w.fsEvents.len > 0
          · simp [actOnTimer, hl]
          · simp only [actOnTimer, hl, slowDownNotifyTimer, if_false, List.append_nil]
            split <;> rfl
        have he : (actOnTimer w).fsEvents = [] := (actOnTimer_debounce w).2.2.1
        simp only [applyStep, selectCase]
        rw [he, hc]
        refine ⟨⟨fun e he => absurd he (List.not_mem_nil e), List.nodup_nil⟩, ?_⟩
        intro B hB
        rcases List.mem_append.mp hB with hB | hB
        · exact ih.2 B hB
        · split at hB
          · rw [List.mem_singleton.mp hB]; exact ih.1
          · exact absurd hB (List.not_mem_nil B)
      | item ev =>
        have hf := updateInProgressSet_frame w ev
        simp only [applyStep, selectCase]
        rw [hf.2.2.1, hf.2.2.2]
        exact ih

/-- The paths of a batch whose keys are its stored paths, read in any
iteration order. -/
theorem FsEventsBatch.GetPaths_of_keysArePaths (B order : FsEventsBatch)
    (hk : B.KeysArePaths) (hn : B.keys.Nodup) (ho : order.Perm B) :
    (FsEventsBatch.GetPaths order).Perm B.keys ∧
    (FsEventsBatch.GetPaths order).Nodup ∧
    (FsEventsBatch.GetPaths order).length = B.len := by
  have heq : FsEventsBatch.GetPaths order = order.map Prod.fst := by
    unfold FsEventsBatch.GetPaths
    apply List.map_congr_left
    intro e he
    exact hk e (ho.subset he)
  have hperm : (FsEventsBatch.GetPaths order).Perm B.keys := by
    rw [heq]
    exact ho.map Prod.fst
  refine ⟨hperm, hperm.nodup_iff.mpr hn, ?_⟩
  rw [hperm.length_eq]
  simp [FsEventsBatch.keys, FsEventsBatch.len]

/-! ### Facts about the path functions -/

namespace Filepath

/-- Reading a string past a part already consumed. -/
theorem byteAt_append_right (done l : GoString) (i : Nat) :
    byteAt (done ++ l) (done.length + i) = byteAt l i := by
  unfold byteAt
  simp [List.getD_eq_getElem?_getD, List.getElem?_append_right]

/-- The first byte after a part already consumed. -/
theorem byteAt_append_zero (done l : GoString) :
    byteAt (done ++ l) done.length = byteAt l 0 := by
  have h := byteAt_append_right done l 0
  simpa using h

/-- What `IsName` requires of an element. -/
theorem isName_iff (s : GoString) :
    IsName s = true ↔ s ≠ [] ∧ (∀ c ∈ s, c ≠ '/') ∧ s ≠ ['.'] ∧ s ≠ ['.', '.'] := by
  unfold IsName IsPathSeparator
  cases s <;> simp [and_assoc]

/-- A `.` element followed by a separator or by the end is skipped. -/
theorem cleanLoop_dot (done t : GoString) (rooted : Bool) (fuel dotdot : Nat)
    (out : GoString) (ht : t = [] ∨ ∃ u, t = '/' :: u) :
    cleanLoop (done ++ '.' :: t) rooted (fuel + 1) done.length dotdot out =
      cleanLoop (done ++ '.' :: t) rooted fuel (done.length + 1) dotdot out := by
  have hb : byteAt (done ++ '.' :: t) done.length = '.' := by
    rw [byteAt_append_zero]; rfl
  rw [cleanLoop]
  rcases ht with ht | ⟨u, ht⟩
  · subst ht
    simp [hb, IsPathSeparator]
  · subst ht
    have hb1 : byteAt (done ++ '.' :: '/' :: u) (done.length + 1) = '/' := by
      rw [byteAt_append_right]; rfl
    simp [hb, hb1, IsPathSeparator]

/-- Copying stops at the end of a name that is followed by a separator or by
the end. -/
theorem takeWhile_name (s t : GoString) (hs : ∀ c ∈ s, c ≠ '/')
    (ht : t = [] ∨ ∃ u, t = '/' :: u) :
    (s ++ t).takeWhile (fun c => !IsPathSeparator c) = s := by
  simp only [IsPathSeparator]
  induction s with
  | nil =>
    rcases ht with ht | ⟨u, ht⟩ <;> subst ht <;> simp
  | cons c s ih =>
    have hc : c ≠ '/' := hs c (List.mem_cons_self _ _)
    have ih2 := ih (fun d hd => hs d (List.mem_cons_of_mem _ hd))
    simp [List.takeWhile_cons, hc, ih2]

/-- A name is copied to the output, after a separator where one is needed. -/
theorem cleanLoop_name (done s t : GoString) (rooted : Bool) (fuel dotdot : Nat)
    (out : GoString) (hs : IsName s = true) (ht : t = [] ∨ ∃ u, t = '/' :: u) :
    cleanLoop (done ++ (s ++ t)) rooted (fuel + 1) done.length dotdot out =
      cleanLoop (done ++ (s ++ t)) rooted fuel (done.length + s.length) dotdot
        ((if (rooted && out.length != 1) || (!rooted && out.length != 0) then out ++ ['/']
          else out) ++ s) := by
  have hn := (isName_iff s).mp hs
  have h0 : byteAt (done ++ (s ++ t)) done.length = byteAt (s ++ t) 0 :=
    byteAt_append_zero done (s ++ t)
  have h1 : byteAt (done ++ (s ++ t)) (done.length + 1) = byteAt (s ++ t) 1 :=
    byteAt_append_right done (s ++ t) 1
  have h2 : byteAt (done ++ (s ++ t)) (done.length + 2) = byteAt (s ++ t) 2 :=
    byteAt_append_right done (s ++ t) 2
  have hdrop : (done ++ (s ++ t)).drop done.length = s ++ t := List.drop_left _ _
  have htw := takeWhile_name s t hn.2.1 ht
  rw [cleanLoop]
  simp only [h0, h1, h2, hdrop, htw, List.length_append]
  match s, hn with
  | [c], hn =>
    have hc1 : c ≠ '/' := hn.2.1 c (List.mem_singleton_self c)
    have hc2 : c ≠ '.' := fun h => hn.2.2.1 (by rw [h])
    simp [byteAt, IsPathSeparator, hc1, hc2]
  | [c, d], hn =>
    have hc1 : c ≠ '/' := hn.2.1 c (by simp)
    have hd1 : d ≠ '/' := hn.2.1 d (by simp)
    have hcd : ¬ (c = '.' ∧ d = '.') := fun h => hn.2.2.2 (by rw [h.1, h.2])
    simp [byteAt, IsPathSeparator, hc1, hd1]
    rw [if_neg (fun h => by omega), if_neg (fun h => hcd h.1)]
  | c :: d :: e :: u, hn =>
    have hc1 : c ≠ '/' := hn.2.1 c (by simp)
    have hd1 : d ≠ '/' := hn.2.1 d (by simp)
    have he1 : e ≠ '/' := hn.2.1 e (by simp)
    simp [byteAt, IsPathSeparator, hc1, hd1, he1]
    rw [if_neg (fun h => by omega), if_neg (fun h => by omega)]


/-- The end of the input: the loop returns what it has written. -/
theorem cleanLoop_end (path : GoString) (rooted : Bool) (fuel dotdot : Nat) (out : GoString)
    (r : Nat) (hr : r = path.length) :
    cleanLoop path rooted fuel r dotdot out = out := by
  subst hr
  cases fuel <;> simp [cleanLoop]

/-- A separator is skipped. -/
theorem cleanLoop_separator (done t : GoString) (rooted : Bool) (fuel dotdot : Nat)
    (out : GoString) :
    cleanLoop (done ++ '/' :: t) rooted (fuel + 1) done.length dotdot out =
      cleanLoop (done ++ '/' :: t) rooted fuel (done.length + 1) dotdot out := by
  have hb : byteAt (done ++ '/' :: t) done.length = '/' := by
    rw [byteAt_append_zero]; rfl
  rw [cleanLoop]
  simp [hb, IsPathSeparator]

/-- A `..` element followed by a separator or by the end: the loop backtracks
over the last element written, or keeps the `..` in a relative path, or drops
it at the root. -/
theorem cleanLoop_dotdot (done t : GoString) (rooted : Bool) (fuel dotdot : Nat)
    (out : GoString) (ht : t = [] ∨ ∃ u, t = '/' :: u) :
    cleanLoop (done ++ '.' :: '.' :: t) rooted (fuel + 1) done.length dotdot out =
      if out.length > dotdot then
        cleanLoop (done ++ '.' :: '.' :: t) rooted fuel (done.length + 2) dotdot
          (out.take (backtrack out dotdot (out.length - 1)))
      else if !rooted then
        cleanLoop (done ++ '.' :: '.' :: t) rooted fuel (done.length + 2)
          ((if out.length > 0 then out ++ ['/'] else out) ++ ['.', '.']).length
          ((if out.length > 0 then out ++ ['/'] else out) ++ ['.', '.'])
      else
        cleanLoop (done ++ '.' :: '.' :: t) rooted fuel (done.length + 2) dotdot out := by
  have hb : byteAt (done ++ '.' :: '.' :: t) done.length = '.' := by
    rw [byteAt_append_zero]; rfl
  have hb1 : byteAt (done ++ '.' :: '.' :: t) (done.length + 1) = '.' := by
    rw [byteAt_append_right]; rfl
  rw [cleanLoop]
  rcases ht with ht | ⟨u, ht⟩
  · subst ht
    simp [hb, hb1, IsPathSeparator]
  · subst ht
    have hb2 : byteAt (done ++ '.' :: '.' :: '/' :: u) (done.length + 2) = '/' := by
      rw [byteAt_append_right]; rfl
    simp [hb, hb1, hb2, IsPathSeparator]

/-- Backtracking over an element without separator stops where the element
starts: at a separator, or at the mark `dotdot`. -/
theorem backtrack_eq (x z : GoString) (dotdot : Nat) (hdd : dotdot ≤ x.length)
    (hstop : x.length = dotdot ∨ IsPathSeparator (byteAt (x ++ z) x.length) = true) :
    ∀ j : Nat, (∀ i, 1 ≤ i → i ≤ j → IsPathSeparator (byteAt (x ++ z) (x.length + i)) = false) →
      backtrack (x ++ z) dotdot (x.length + j) = x.length := by
  intro j
  induction j with
  | zero =>
    intro _
    cases hx : x.length with
    | zero => simp [backtrack]
    | succ w =>
      rw [Nat.add_zero, backtrack]
      rcases hstop with h | h
      · have : ¬ (w + 1 > dotdot) := by omega
        simp [this]
      · rw [hx] at h
        simp [h]
  | succ j ih =>
    intro h
    have h1 := h (j + 1) (by omega) (by omega)
    have e : x.length + (j + 1) = (x.length + j) + 1 := by omega
    rw [e, backtrack]
    rw [e] at h1
    have hd : x.length + j + 1 > dotdot := by omega
    simp only [hd, h1, decide_True, Bool.not_false, Bool.and_self, if_true]
    exact ih (fun i hi1 hi2 => h i hi1 (by omega))

/-- A join is the first element followed by the others, each after a separator. -/
theorem joinSegments_cons (s : GoString) (rest : List GoString) :
    joinSegments (s :: rest) = s ++ (rest.map (fun x => '/' :: x)).flatten := by
  induction rest generalizing s with
  | nil => simp [joinSegments]
  | cons t rest ih =>
    have h : joinSegments (s :: t :: rest) = s ++ '/' :: joinSegments (t :: rest) := rfl
    rw [h, ih]
    simp

/-- The join of two lists of elements. -/
theorem joinSegments_append (a b : List GoString) (ha : a ≠ []) (hb : b ≠ []) :
    joinSegments (a ++ b) = joinSegments a ++ '/' :: joinSegments b := by
  obtain ⟨s, a2, rfl⟩ := List.exists_cons_of_ne_nil ha
  obtain ⟨t, b2, rfl⟩ := List.exists_cons_of_ne_nil hb
  rw [List.cons_append, joinSegments_cons, joinSegments_cons, joinSegments_cons]
  simp

/-- A join that starts with a non-empty element starts with its first byte. -/
theorem joinSegments_head (c : Char) (s : GoString) (rest : List GoString) :
    ∃ u, joinSegments ((c :: s) :: rest) = c :: u := by
  rw [joinSegments_cons]
  exact ⟨_, rfl⟩

/-- What follows the first element of a join: nothing, or a separator and the
join of the other elements. -/
theorem joinSegments_tail (s : GoString) (rest : List GoString) :
    ∃ t, joinSegments (s :: rest) = s ++ t ∧
      ((rest = [] ∧ t = []) ∨ (rest ≠ [] ∧ t = '/' :: joinSegments rest)) := by
  cases rest with
  | nil => exact ⟨[], by simp [joinSegments], Or.inl ⟨rfl, rfl⟩⟩
  | cons t rest => exact ⟨'/' :: joinSegments (t :: rest), rfl, Or.inr ⟨by simp, rfl⟩⟩

/-- A kept element: `..` or a name.  It is not empty and holds no separator. -/
theorem kept_pieces (k : Nat) (names : List GoString) (hn : ∀ s ∈ names, IsName s = true) :
    ∀ s ∈ ups k ++ names, s ≠ [] ∧ ∀ c ∈ s, c ≠ '/' := by
  intro s hs
  rcases List.mem_append.mp hs with h | h
  · have : s = ['.', '.'] := List.eq_of_mem_replicate h
    subst this
    exact ⟨by simp, by decide⟩
  · have := (isName_iff s).mp (hn s h)
    exact ⟨this.1, this.2.1⟩

/-- A join of non-empty elements is empty only for no elements. -/
theorem joinSegments_ne_nil (l : List GoString) (hl : l ≠ []) (hn : ∀ s ∈ l, s ≠ []) :
    joinSegments l ≠ [] := by
  obtain ⟨s, rest, rfl⟩ := List.exists_cons_of_ne_nil hl
  obtain ⟨c, s2, rfl⟩ := List.exists_cons_of_ne_nil (hn s (List.mem_cons_self _ _))
  obtain ⟨u, hu⟩ := joinSegments_head c s2 rest
  rw [hu]
  simp

/-- Writing a name after the elements kept so far. -/
theorem written_name (rooted : Bool) (k : Nat) (names : List GoString) (s : GoString)
    (hk : rooted = true → k = 0) (hn : ∀ x ∈ names, IsName x = true) :
    (if (rooted && (written rooted (k, names)).length != 1) ||
        (!rooted && (written rooted (k, names)).length != 0)
      then written rooted (k, names) ++ ['/'] else written rooted (k, names)) ++ s =
      written rooted (k, names ++ [s]) := by
  unfold written
  simp only []
  by_cases hp : ups k ++ names = []
  · have e : ups k ++ (names ++ [s]) = [s] := by
      rw [← List.append_assoc, hp]; rfl
    rw [hp, e]
    cases rooted <;> simp [joinSegments]
  · have hne := joinSegments_ne_nil _ hp (fun x hx => (kept_pieces k names hn x hx).1)
    have hlen : 0 < (joinSegments (ups k ++ names)).length := List.length_pos.mpr hne
    have e : ups k ++ (names ++ [s]) = (ups k ++ names) ++ [s] := by simp
    rw [e, joinSegments_append _ _ hp (by simp)]
    cases rooted
    · simp [hne, joinSegments]
    · simp [hne, joinSegments]

/-- A byte read inside a string is one of its bytes. -/
theorem byteAt_mem (l : GoString) (i : Nat) (h : i < l.length) : byteAt l i ∈ l := by
  unfold byteAt
  rw [List.getD_eq_getElem _ _ h]
  exact List.getElem_mem h

/-- The leading `..` elements, one more. -/
theorem ups_succ (k : Nat) : ups (k + 1) = ups k ++ [['.', '.']] := by
  unfold ups
  exact List.replicate_succ' k _

/-- No leading `..` elements. -/
theorem ups_eq_nil (k : Nat) : ups k = [] ↔ k = 0 := by
  unfold ups
  cases k <;> simp [List.replicate_succ]

/-- The output after one more kept name. -/
theorem written_snoc (rooted : Bool) (k : Nat) (names : List GoString) (s : GoString) :
    written rooted (k, names ++ [s]) =
      written rooted (k, names) ++ ((if ups k ++ names = [] then [] else ['/']) ++ s) := by
  unfold written
  simp only []
  by_cases hp : ups k ++ names = []
  · have e : ups k ++ (names ++ [s]) = [s] := by
      rw [← List.append_assoc, hp]; rfl
    rw [hp, e]
    simp [joinSegments]
  · have e : ups k ++ (names ++ [s]) = (ups k ++ names) ++ [s] := by simp
    rw [e, joinSegments_append _ _ hp (by simp)]
    simp [hp, joinSegments]

/-- The mark `dotdot` lies inside what has been written. -/
theorem written_length_le (rooted : Bool) (k : Nat) (names : List GoString) :
    (written rooted (k, [])).length ≤ (written rooted (k, names)).length := by
  unfold written
  simp only [List.append_nil, List.length_append]
  by_cases h1 : ups k = []
  · rw [h1]; simp [joinSegments]
  · by_cases h2 : names = []
    · rw [h2]; simp
    · rw [joinSegments_append _ _ h1 h2]
      simp only [List.length_append, List.length_cons]
      omega

/-- Backtracking over the last name kept gives back what was written before it. -/
theorem written_backtrack (rooted : Bool) (k : Nat) (names : List GoString) (last : GoString)
    (hl : IsName last = true) :
    (written rooted (k, [])).length < (written rooted (k, names ++ [last])).length ∧
    (written rooted (k, names ++ [last])).take
      (backtrack (written rooted (k, names ++ [last])) (written rooted (k, [])).length
        ((written rooted (k, names ++ [last])).length - 1)) = written rooted (k, names) := by
  have hlast := (isName_iff last).mp hl
  have hlen : 0 < last.length := List.length_pos.mpr hlast.1
  have hle := written_length_le rooted k names
  have hsep : ∀ i, i < last.length → IsPathSeparator (byteAt last i) = false := by
    intro i hi
    have := hlast.2.1 _ (byteAt_mem last i hi)
    simp [IsPathSeparator, this]
  rw [written_snoc]
  by_cases hp : ups k ++ names = []
  · have hnames : names = [] := (List.append_eq_nil.mp hp).2
    subst hnames
    simp only [hp, if_true, List.nil_append]
    have hb := backtrack_eq (written rooted (k, [])) last (written rooted (k, [])).length
      (Nat.le_refl _) (Or.inl rfl) (last.length - 1) (by
        intro i hi1 hi2
        rw [byteAt_append_right]
        exact hsep i (by omega))
    have e : (written rooted (k, []) ++ last).length - 1 =
        (written rooted (k, [])).length + (last.length - 1) := by
      simp only [List.length_append]; omega
    rw [e, hb]
    refine ⟨by simp only [List.length_append]; omega, ?_⟩
    exact List.take_left' rfl
  · simp only [hp, if_false]
    have hb := backtrack_eq (written rooted (k, names)) (['/'] ++ last)
      (written rooted (k, [])).length hle (Or.inr (by
        rw [byteAt_append_zero]; rfl)) last.length (by
        intro i hi1 hi2
        rw [byteAt_append_right]
        obtain ⟨i2, rfl⟩ : ∃ i2, i = i2 + 1 := ⟨i - 1, by omega⟩
        have : byteAt (['/'] ++ last) (i2 + 1) = byteAt last i2 := by
          simp [byteAt]
        rw [this]
        exact hsep i2 (by omega))
    have e : (written rooted (k, names) ++ (['/'] ++ last)).length - 1 =
        (written rooted (k, names)).length + last.length := by
      simp only [List.length_append, List.length_singleton]; omega
    rw [e, hb]
    refine ⟨by simp only [List.length_append, List.length_singleton]; omega, ?_⟩
    exact List.take_left' rfl

/-- Keeping one more `..` element at the start of a relative path. -/
theorem written_up (k : Nat) :
    (if (written false (k, [])).length > 0 then written false (k, []) ++ ['/']
      else written false (k, [])) ++ ['.', '.'] = written false (k + 1, []) := by
  unfold written
  simp only [List.append_nil, Bool.false_eq_true, if_false, List.nil_append]
  rw [ups_succ]
  by_cases h : ups k = []
  · rw [h]; simp [joinSegments]
  · have hne := joinSegments_ne_nil _ h (fun x hx => by
      have := kept_pieces k [] (by simp) x (by simpa using hx)
      exact this.1)
    have hlen : 0 < (joinSegments (ups k)).length := List.length_pos.mpr hne
    rw [joinSegments_append _ _ h (by simp)]
    simp [hlen, joinSegments]

/-- The kept elements stay leading `..` elements, none in a rooted path,
followed by names. -/
theorem cleanStep_kept (rooted : Bool) (k : Nat) (names : List GoString) (s : GoString)
    (hk : rooted = true → k = 0) (hn : ∀ x ∈ names, IsName x = true)
    (hs : ∀ c ∈ s, c ≠ '/') :
    (rooted = true → (cleanStep rooted (k, names) s).1 = 0) ∧
    (∀ x ∈ (cleanStep rooted (k, names) s).2, IsName x = true) := by
  unfold cleanStep
  by_cases h1 : (s.isEmpty || s == ['.']) = true
  · simp only [h1, if_true]
    exact ⟨hk, hn⟩
  · simp only [h1, if_false]
    by_cases h2 : (s == ['.', '.']) = true
    · simp only [h2, if_true]
      by_cases h3 : (!names.isEmpty) = true
      · simp only [h3, if_true]
        exact ⟨hk, fun x hx => hn x (List.mem_of_mem_dropLast hx)⟩
      · simp only [h3, if_false]
        cases rooted
        · simp
        · simp only [Bool.not_true, Bool.false_eq_true, if_false]
          exact ⟨fun _ => hk rfl, hn⟩
    · simp only [h2, if_false]
      refine ⟨hk, ?_⟩
      intro x hx
      rcases List.mem_append.mp hx with h | h
      · exact hn x h
      · rw [List.mem_singleton.mp h]
        rw [isName_iff]
        simp only [Bool.or_eq_true, List.isEmpty_iff, beq_iff_eq, not_or] at h1
        simp only [beq_iff_eq] at h2
        exact ⟨h1.1, hs, h1.2, h2⟩

/-- One iteration of the loop of `Clean` on a non-empty element, in terms of
the elements kept. -/
theorem cleanLoop_element (rooted : Bool) (done s t : GoString) (fuel k : Nat)
    (names : List GoString) (hk : rooted = true → k = 0)
    (hn : ∀ x ∈ names, IsName x = true) (hs : ∀ c ∈ s, c ≠ '/') (hne : s ≠ [])
    (ht : t = [] ∨ ∃ u, t = '/' :: u) :
    cleanLoop (done ++ (s ++ t)) rooted (fuel + 1) done.length
        (written rooted (k, [])).length (written rooted (k, names)) =
      cleanLoop (done ++ (s ++ t)) rooted fuel (done.length + s.length)
        (written rooted ((cleanStep rooted (k, names) s).1, [])).length
        (written rooted (cleanStep rooted (k, names) s)) := by
  by_cases h1 : s = ['.']
  · subst h1
    have h := cleanLoop_dot done t rooted fuel (written rooted (k, [])).length
      (written rooted (k, names)) ht
    simp only [List.singleton_append, List.length_singleton] at h ⊢
    rw [h]
    rfl
  · by_cases h2 : s = ['.', '.']
    · subst h2
      have h := cleanLoop_dotdot done t rooted fuel (written rooted (k, [])).length
        (written rooted (k, names)) ht
      have e : done ++ (['.', '.'] ++ t) = done ++ '.' :: '.' :: t := rfl
      have e2 : done.length + (['.', '.'] : GoString).length = done.length + 2 := rfl
      rw [e, e2, h]
      rcases List.eq_nil_or_concat names with hnil | ⟨ns, last, hcat⟩
      · subst hnil
        have hlt : ¬ ((written rooted (k, [])).length > (written rooted (k, [])).length) := by
          omega
        rw [if_neg hlt]
        cases rooted with
        | false =>
          simp only [Bool.not_false, if_true]
          rw [written_up]
          rfl
        | true =>
          simp only [Bool.not_true, Bool.false_eq_true, if_false]
          rfl
      · rw [List.concat_eq_append] at hcat
        subst hcat
        have hl : IsName last = true := hn last (by simp)
        have hb := written_backtrack rooted k ns last hl
        rw [if_pos hb.1, hb.2]
        have hstep : cleanStep rooted (k, ns ++ [last]) ['.', '.'] = (k, ns) := by
          simp [cleanStep]
        rw [hstep]
    · have hname : IsName s = true := (isName_iff s).mpr ⟨hne, hs, h1, h2⟩
      have h := cleanLoop_name done s t rooted fuel (written rooted (k, [])).length
        (written rooted (k, names)) hname ht
      rw [h, written_name rooted k names s hk hn]
      have hstep : cleanStep rooted (k, names) s = (k, names ++ [s]) := by
        have hne2 : s.isEmpty = false := by
          cases s
          · exact absurd rfl hne
          · rfl
        have hb1 : (s == ['.']) = false := by simpa using h1
        have hb2 : (s == ['.', '.']) = false := by simpa using h2
        simp [cleanStep, hne2, hb1, hb2]
      rw [hstep]

/-- The loop of `Clean` over the elements of a path, whatever they are: it
writes the elements that `cleanStep` keeps. -/
theorem cleanLoop_elements (rooted : Bool) (segs : List GoString)
    (hsegs : ∀ s ∈ segs, ∀ c ∈ s, c ≠ '/') :
    ∀ (done : GoString) (fuel k : Nat) (names : List GoString),
      (rooted = true → k = 0) → (∀ x ∈ names, IsName x = true) →
      (joinSegments segs).length ≤ fuel →
      cleanLoop (done ++ joinSegments segs) rooted fuel done.length
          (written rooted (k, [])).length (written rooted (k, names)) =
        written rooted (segs.foldl (cleanStep rooted) (k, names)) := by
  induction segs with
  | nil =>
    intro done fuel k names _ _ _
    exact cleanLoop_end _ _ _ _ _ _ (by simp [joinSegments])
  | cons s rest ih =>
    intro done fuel k names hk hn hfuel
    have hs : ∀ c ∈ s, c ≠ '/' := hsegs s (List.mem_cons_self _ _)
    have hrest : ∀ x ∈ rest, ∀ c ∈ x, c ≠ '/' :=
      fun x hx => hsegs x (List.mem_cons_of_mem _ hx)
    obtain ⟨t, hj, ht⟩ := joinSegments_tail s rest
    rw [hj] at hfuel ⊢
    simp only [List.length_append] at hfuel
    have hinv := cleanStep_kept rooted k names s hk hn hs
    rw [List.foldl_cons]
    -- what is left to do once the element has been read
    have cont : ∀ f : Nat, t.length ≤ f →
        cleanLoop (done ++ (s ++ t)) rooted f (done.length + s.length)
          (written rooted ((cleanStep rooted (k, names) s).1, [])).length
          (written rooted (cleanStep rooted (k, names) s)) =
        written rooted (rest.foldl (cleanStep rooted) (cleanStep rooted (k, names) s)) := by
      intro f hf
      rcases ht with ⟨hr, ht⟩ | ⟨hr, ht⟩
      · subst hr ht
        rw [cleanLoop_end _ _ _ _ _ _ (by simp)]
        rfl
      · subst ht
        simp only [List.length_cons] at hf
        obtain ⟨f2, rfl⟩ : ∃ f2, f = f2 + 1 := ⟨f - 1, by omega⟩
        have e1 : done ++ (s ++ '/' :: joinSegments rest) =
            (done ++ s) ++ '/' :: joinSegments rest := by simp
        have e2 : done.length + s.length = (done ++ s).length := by simp
        rw [e1, e2, cleanLoop_separator]
        have e3 : (done ++ s) ++ '/' :: joinSegments rest =
            (done ++ s ++ ['/']) ++ joinSegments rest := by simp
        have e4 : (done ++ s).length + 1 = (done ++ s ++ ['/']).length := by
          simp only [List.length_append, List.length_singleton]
        rw [e3, e4]
        exact ih hrest _ _ _ _ hinv.1 hinv.2 (by omega)
    by_cases hne : s = []
    · subst hne
      have hstep : cleanStep rooted (k, names) [] = (k, names) := by simp [cleanStep]
      have h := cont fuel (by simpa using hfuel)
      rw [hstep] at h ⊢
      simpa using h
    · have hlen : 0 < s.length := List.length_pos.mpr hne
      obtain ⟨f, rfl⟩ : ∃ f, fuel = f + 1 := ⟨fuel - 1, by omega⟩
      have ht2 : t = [] ∨ ∃ u, t = '/' :: u := by
        rcases ht with ⟨_, ht⟩ | ⟨_, ht⟩
        · exact Or.inl ht
        · exact Or.inr ⟨_, ht⟩
      rw [cleanLoop_element rooted done s t f k names hk hn hs hne ht2]
      exact cont f (by omega)

/-- A path always has elements. -/
theorem splitSegments_ne_nil (path : GoString) : splitSegments path ≠ [] := by
  cases path with
  | nil => simp [splitSegments]
  | cons c rest =>
    unfold splitSegments
    split
    · simp
    · split <;> simp

/-- The elements of a path that does not start with a separator: the first
one starts with the first byte of the path. -/
theorem splitSegments_cons (c : Char) (rest : GoString) (hc : c ≠ '/') :
    ∃ s t, splitSegments (c :: rest) = (c :: s) :: t ∧ splitSegments rest = s :: t := by
  obtain ⟨s, t, hst⟩ := List.exists_cons_of_ne_nil (splitSegments_ne_nil rest)
  refine ⟨s, t, ?_, hst⟩
  rw [splitSegments]
  simp [IsPathSeparator, hc, hst]

/-- The elements of a path that starts with a separator: the first one is empty. -/
theorem splitSegments_separator (rest : GoString) :
    splitSegments ('/' :: rest) = [] :: splitSegments rest := by
  rw [splitSegments]
  simp [IsPathSeparator]

/-- Joining the elements of a path gives the path back. -/
theorem joinSegments_splitSegments (path : GoString) :
    joinSegments (splitSegments path) = path := by
  induction path with
  | nil => rfl
  | cons c rest ih =>
    by_cases hc : c = '/'
    · subst hc
      obtain ⟨s, t, hst⟩ := List.exists_cons_of_ne_nil (splitSegments_ne_nil rest)
      have h : joinSegments ([] :: s :: t) = '/' :: joinSegments (s :: t) := rfl
      rw [splitSegments_separator, hst, h, ← hst, ih]
    · obtain ⟨s, t, h1, h2⟩ := splitSegments_cons c rest hc
      rw [h1, joinSegments_cons, ← ih, h2, joinSegments_cons]
      simp

/-- The elements of a path hold no separator. -/
theorem splitSegments_no_separator (path : GoString) :
    ∀ s ∈ splitSegments path, ∀ c ∈ s, c ≠ '/' := by
  induction path with
  | nil => simp [splitSegments]
  | cons c rest ih =>
    by_cases hc : c = '/'
    · subst hc
      rw [splitSegments_separator]
      intro s hs
      rcases List.mem_cons.mp hs with h | h
      · rw [h]; simp
      · exact ih s h
    · obtain ⟨s, t, h1, h2⟩ := splitSegments_cons c rest hc
      rw [h1]
      rw [h2] at ih
      intro x hx
      rcases List.mem_cons.mp hx with h | h
      · rw [h]
        intro d hd
        rcases List.mem_cons.mp hd with h3 | h3
        · rw [h3]; exact hc
        · exact ih s (List.mem_cons_self _ _) d h3
      · exact ih x (List.mem_cons_of_mem _ h)

/-- After any elements the kept elements are leading `..` elements, none in a
rooted path, followed by names. -/
theorem foldl_cleanStep_kept (rooted : Bool) (segs : List GoString)
    (hsegs : ∀ s ∈ segs, ∀ c ∈ s, c ≠ '/') :
    ∀ (k : Nat) (names : List GoString), (rooted = true → k = 0) →
      (∀ x ∈ names, IsName x = true) →
      (rooted = true → (segs.foldl (cleanStep rooted) (k, names)).1 = 0) ∧
      (∀ x ∈ (segs.foldl (cleanStep rooted) (k, names)).2, IsName x = true) := by
  induction segs with
  | nil => intro k names hk hn; exact ⟨hk, hn⟩
  | cons s rest ih =>
    intro k names hk hn
    have h := cleanStep_kept rooted k names s hk hn (hsegs s (List.mem_cons_self _ _))
    rw [List.foldl_cons]
    exact ih (fun x hx => hsegs x (List.mem_cons_of_mem _ hx)) _ _ h.1 h.2

/-- The result of `Clean` from what its loop has written: `.` for nothing. -/
theorem cleanPath_of_written (rooted : Bool) (k : Nat) (names : List GoString)
    (hn : ∀ x ∈ names, IsName x = true) :
    (if (written rooted (k, names)).length == 0 then ['.'] else written rooted (k, names)) =
      cleanPath rooted (ups k ++ names) := by
  unfold written cleanPath
  cases rooted with
  | true => simp
  | false =>
    simp only [Bool.false_eq_true, if_false, List.nil_append]
    by_cases hp : ups k ++ names = []
    · rw [hp]; simp [joinSegments]
    · have hne := joinSegments_ne_nil _ hp (fun x hx => (kept_pieces k names hn x hx).1)
      have he : (ups k ++ names).isEmpty = false := by
        cases h : ups k ++ names
        · exact absurd h hp
        · rfl
      simp [hne, he]

/-- `Clean` of a rooted path, whatever its elements. -/
theorem Clean_rooted (segs : List GoString) (hsegs : ∀ s ∈ segs, ∀ c ∈ s, c ≠ '/') :
    Clean ('/' :: joinSegments segs) =
      cleanPath true (ups (segs.foldl (cleanStep true) (0, [])).1 ++
        (segs.foldl (cleanStep true) (0, [])).2) := by
  have h := cleanLoop_elements true segs hsegs ['/'] ('/' :: joinSegments segs).length 0 []
    (fun _ => rfl) (by simp) (by simp)
  have hinv := foldl_cleanStep_kept true segs hsegs 0 [] (fun _ => rfl) (by simp)
  have hw : written true (0, []) = ['/'] := rfl
  rw [hw] at h
  simp only [List.singleton_append, List.length_singleton] at h
  rw [← cleanPath_of_written true _ _ hinv.2]
  unfold Clean
  simp only [byteAt, IsPathSeparator]
  simp only [List.getD_cons_zero, beq_self_eq_true, if_true]
  rw [h]
  simp

/-- `Clean` of a relative path, whatever its elements, the first one not empty. -/
theorem Clean_relative (s : GoString) (segs : List GoString) (hs : s ≠ [])
    (hsegs : ∀ x ∈ s :: segs, ∀ c ∈ x, c ≠ '/') :
    Clean (joinSegments (s :: segs)) =
      cleanPath false (ups ((s :: segs).foldl (cleanStep false) (0, [])).1 ++
        ((s :: segs).foldl (cleanStep false) (0, [])).2) := by
  obtain ⟨c, s2, rfl⟩ := List.exists_cons_of_ne_nil hs
  obtain ⟨u, hu⟩ := joinSegments_head c s2 segs
  have hc : c ≠ '/' := hsegs _ (List.mem_cons_self _ _) c (List.mem_cons_self _ _)
  have h := cleanLoop_elements false ((c :: s2) :: segs) hsegs []
    (joinSegments ((c :: s2) :: segs)).length 0 [] (by simp) (by simp) (by simp)
  have hinv := foldl_cleanStep_kept false ((c :: s2) :: segs) hsegs 0 [] (by simp) (by simp)
  have hw : written false (0, []) = [] := rfl
  rw [hw] at h
  simp only [List.nil_append, List.length_nil] at h
  rw [← cleanPath_of_written false _ _ hinv.2]
  unfold Clean
  rw [hu] at h ⊢
  simp only [byteAt, IsPathSeparator, List.getD_cons_zero]
  have hne : ((c :: u) == ([] : GoString)) = false := by simp
  have hc2 : (c == '/') = false := by simp [hc]
  simp only [hne, hc2, Bool.false_eq_true, if_false]
  rw [h]

/-- The form of every result of `Clean`: a clean path, that is `/` and names
for a rooted path, and `.` or leading `..` elements and names for a relative
one. -/
theorem Clean_form (path : GoString) :
    ∃ (k : Nat) (names : List GoString),
      (IsPathSeparator (byteAt path 0) = true → k = 0) ∧
      (∀ x ∈ names, IsName x = true) ∧
      Clean path = cleanPath (IsPathSeparator (byteAt path 0)) (ups k ++ names) := by
  cases path with
  | nil => exact ⟨0, [], fun _ => rfl, by simp, by decide⟩
  | cons c rest =>
    by_cases hc : c = '/'
    · subst hc
      have hsegs := splitSegments_no_separator rest
      have hinv := foldl_cleanStep_kept true _ hsegs 0 [] (fun _ => rfl) (by simp)
      have h := Clean_rooted (splitSegments rest) hsegs
      rw [joinSegments_splitSegments] at h
      have hb : IsPathSeparator (byteAt ('/' :: rest) 0) = true := rfl
      rw [hb]
      exact ⟨_, _, fun _ => hinv.1 rfl, hinv.2, h⟩
    · obtain ⟨s, t, h1, _⟩ := splitSegments_cons c rest hc
      have hsegs := splitSegments_no_separator (c :: rest)
      have hinv := foldl_cleanStep_kept false _ hsegs 0 [] (by simp) (by simp)
      have h : Clean (joinSegments (splitSegments (c :: rest))) =
          cleanPath false (ups ((splitSegments (c :: rest)).foldl (cleanStep false) (0, [])).1 ++
            ((splitSegments (c :: rest)).foldl (cleanStep false) (0, [])).2) := by
        rw [h1]
        exact Clean_relative (c :: s) t (by simp) (by rw [← h1]; exact hsegs)
      rw [joinSegments_splitSegments] at h
      have hb : IsPathSeparator (byteAt (c :: rest) 0) = false := by
        simp [byteAt, IsPathSeparator, hc]
      rw [hb]
      exact ⟨_, _, by simp, hinv.2, h⟩

/-- The element scan of `Rel` stops at the end of a piece without separator. -/
theorem takeWhile_piece (s t : GoString) (hs : ∀ c ∈ s, c ≠ '/')
    (ht : t = [] ∨ ∃ u, t = '/' :: u) :
    (s ++ t).takeWhile (fun c => c != '/') = s :=
  takeWhile_name s t hs ht

/-- One iteration of the loop of `Rel` over a piece that base and target share,
with more of the base to come. -/
theorem relLoop_shared (done s ub ut : GoString) (fuel b0 t0 : Nat)
    (hs : ∀ c ∈ s, c ≠ '/') :
    relLoop (done ++ (s ++ '/' :: ub)) (done ++ (s ++ '/' :: ut)) (fuel + 1)
        b0 done.length t0 done.length =
      relLoop (done ++ (s ++ '/' :: ub)) (done ++ (s ++ '/' :: ut)) fuel
        (done.length + s.length + 1) (done.length + s.length + 1)
        (done.length + s.length + 1) (done.length + s.length + 1) := by
  have hb := takeWhile_piece s ('/' :: ub) hs (Or.inr ⟨_, rfl⟩)
  have ht := takeWhile_piece s ('/' :: ut) hs (Or.inr ⟨_, rfl⟩)
  rw [relLoop]
  simp only [List.drop_left, hb, ht, List.length_append, List.length_cons,
    Nat.add_sub_cancel_left, List.take_left']
  have h1 : done.length < done.length + (s.length + (ub.length + 1)) := by omega
  have h2 : done.length < done.length + (s.length + (ut.length + 1)) := by omega
  have h3 : done.length + s.length < done.length + (s.length + (ub.length + 1)) := by omega
  have h4 : done.length + s.length < done.length + (s.length + (ut.length + 1)) := by omega
  simp [h1, h2, h3, h4]

/-- The last iteration of the loop of `Rel` over the base: its last piece is
shared, and the target goes on after a separator. -/
theorem relLoop_last (done s ut : GoString) (fuel b0 t0 : Nat)
    (hs : ∀ c ∈ s, c ≠ '/') (hne : s ≠ []) :
    relLoop (done ++ s) (done ++ (s ++ '/' :: ut)) (fuel + 1)
        b0 done.length t0 done.length =
      ((done ++ s).length, (done ++ s).length, (done ++ s).length + 1,
        (done ++ s).length + 1) := by
  have hb := takeWhile_piece s [] hs (Or.inl rfl)
  have ht := takeWhile_piece s ('/' :: ut) hs (Or.inr ⟨_, rfl⟩)
  simp only [List.append_nil] at hb
  have hlen : 0 < s.length := List.length_pos.mpr hne
  rw [relLoop]
  simp only [List.drop_left, hb, ht, List.length_append, List.length_cons,
    Nat.add_sub_cancel_left, List.take_left', List.take_length]
  have h1 : done.length < done.length + s.length := by omega
  have h2 : done.length < done.length + (s.length + (ut.length + 1)) := by omega
  have h4 : done.length + s.length < done.length + (s.length + (ut.length + 1)) := by omega
  simp only [h1, h2, h4, decide_True, Bool.and_self, if_true, bne_self_eq_false,
    Bool.false_eq_true, if_false, lt_self_iff_false]
  cases fuel with
  | zero => rfl
  | succ f =>
    rw [relLoop]
    simp

/-- The loop of `Rel` walks through a base made of names while the target
repeats it and goes on after a separator. -/
theorem relLoop_names (names : List GoString) (hne : names ≠ [])
    (hn : ∀ s ∈ names, s ≠ [] ∧ ∀ c ∈ s, c ≠ '/') :
    ∀ (done ut : GoString) (fuel b0 t0 : Nat), names.length ≤ fuel →
      relLoop (done ++ joinSegments names) (done ++ (joinSegments names ++ '/' :: ut)) fuel
          b0 done.length t0 done.length =
        ((done ++ joinSegments names).length, (done ++ joinSegments names).length,
          (done ++ joinSegments names).length + 1,
          (done ++ joinSegments names).length + 1) := by
  induction names with
  | nil => exact absurd rfl hne
  | cons s rest ih =>
    intro done ut fuel b0 t0 hfuel
    have hs := hn s (List.mem_cons_self _ _)
    cases rest with
    | nil =>
      obtain ⟨f, rfl⟩ : ∃ f, fuel = f + 1 := ⟨fuel - 1, by simp at hfuel; omega⟩
      simp only [joinSegments]
      exact relLoop_last done s ut f b0 t0 hs.2 hs.1
    | cons t rest2 =>
      obtain ⟨f, rfl⟩ : ∃ f, fuel = f + 1 := ⟨fuel - 1, by simp at hfuel; omega⟩
      have hj : joinSegments (s :: t :: rest2) = s ++ '/' :: joinSegments (t :: rest2) := rfl
      rw [hj]
      have e1 : done ++ ((s ++ '/' :: joinSegments (t :: rest2)) ++ '/' :: ut) =
          done ++ (s ++ '/' :: (joinSegments (t :: rest2) ++ '/' :: ut)) := by simp
      rw [e1, relLoop_shared done s _ _ f b0 t0 hs.2]
      have e2 : done ++ (s ++ '/' :: joinSegments (t :: rest2)) =
          (done ++ s ++ ['/']) ++ joinSegments (t :: rest2) := by simp
      have e3 : done ++ (s ++ '/' :: (joinSegments (t :: rest2) ++ '/' :: ut)) =
          (done ++ s ++ ['/']) ++ (joinSegments (t :: rest2) ++ '/' :: ut) := by simp
      have e4 : done.length + s.length + 1 = (done ++ s ++ ['/']).length := by
        simp only [List.length_append, List.length_singleton]
      rw [e2, e3, e4]
      exact ih (List.cons_ne_nil _ _) (fun x hx => hn x (List.mem_cons_of_mem _ hx))
        _ _ _ _ _ (by simp at hfuel ⊢; omega)

/-- A join of non-empty pieces is at least as long as the number of pieces. -/
theorem length_le_joinSegments (names : List GoString) (hn : ∀ s ∈ names, s ≠ []) :
    names.length ≤ (joinSegments names).length := by
  induction names with
  | nil => simp [joinSegments]
  | cons s rest ih =>
    have hs : 0 < s.length := List.length_pos.mpr (hn s (List.mem_cons_self _ _))
    have ih2 := ih (fun x hx => hn x (List.mem_cons_of_mem _ hx))
    cases rest with
    | nil => simp [joinSegments]; omega
    | cons t rest2 =>
      have hj : joinSegments (s :: t :: rest2) = s ++ '/' :: joinSegments (t :: rest2) := rfl
      rw [hj]
      simp only [List.length_append, List.length_cons] at ih2 ⊢
      omega

/-- The result of `Rel` once its loop has walked through the whole base. -/
theorem Rel_of_relLoop (basepath targpath base targ : GoString) (t0 ti : Nat)
    (hb : (if Clean basepath == ['.'] then [] else Clean basepath) = base)
    (ht : Clean targpath = targ) (hne : targ ≠ Clean basepath)
    (hsl : (decide (base.length > 0) && byteAt base 0 == '/') =
      (decide (targ.length > 0) && byteAt targ 0 == '/'))
    (hloop : relLoop base targ (base.length + 1) 0 0 0 0 =
      (base.length, base.length, t0, ti)) :
    Rel basepath targpath = some (targ.drop t0) := by
  unfold Rel
  simp only [ht, hb]
  have h1 : (targ == Clean basepath) = false := by simpa using hne
  simp only [h1, Bool.false_eq_true, if_false, hsl, bne_self_eq_false, hloop,
    Nat.sub_self, List.take_zero]
  simp

/-- Names, empty elements and `.` elements: the names are kept after the ones
kept before, the others are skipped. -/
theorem foldl_cleanStep_segments (rooted : Bool) (segs : List GoString)
    (hsegs : ∀ s ∈ segs, IsName s = true ∨ s = [] ∨ s = ['.']) :
    ∀ (k : Nat) (names : List GoString),
      segs.foldl (cleanStep rooted) (k, names) = (k, names ++ segs.filter IsName) := by
  induction segs with
  | nil => intro k names; simp
  | cons s rest ih =>
    intro k names
    have hrest := ih (fun x hx => hsegs x (List.mem_cons_of_mem _ hx))
    rw [List.foldl_cons]
    rcases hsegs s (List.mem_cons_self _ _) with hs | hs | hs
    · have hn := (isName_iff s).mp hs
      have hne2 : s.isEmpty = false := by
        cases s
        · exact absurd rfl hn.1
        · rfl
      have hb1 : (s == ['.']) = false := by simpa using hn.2.2.1
      have hb2 : (s == ['.', '.']) = false := by simpa using hn.2.2.2
      have hstep : cleanStep rooted (k, names) s = (k, names ++ [s]) := by
        simp [cleanStep, hne2, hb1, hb2]
      rw [hstep, hrest]
      simp [List.filter, hs]
    · subst hs
      have hstep : cleanStep rooted (k, names) [] = (k, names) := by simp [cleanStep]
      have hf : IsName [] = false := by decide
      rw [hstep, hrest]
      simp [List.filter, hf]
    · subst hs
      have hstep : cleanStep rooted (k, names) ['.'] = (k, names) := by simp [cleanStep]
      have hf : IsName ['.'] = false := by decide
      rw [hstep, hrest]
      simp [List.filter, hf]

/-- Leading `..` elements of a relative path are kept. -/
theorem foldl_cleanStep_ups (k : Nat) :
    ∀ j : Nat, (ups k).foldl (cleanStep false) (j, []) = (j + k, []) := by
  induction k with
  | zero => intro j; rfl
  | succ k ih =>
    intro j
    have e : ups (k + 1) = ['.', '.'] :: ups k := rfl
    have hstep : cleanStep false (j, []) ['.', '.'] = (j + 1, []) := by simp [cleanStep]
    rw [e, List.foldl_cons, hstep, ih]
    congr 1
    omega

/-- The elements kept from a clean path followed by names, empty elements and
`.` elements. -/
theorem foldl_cleanStep_root (rooted : Bool) (k : Nat) (cs segs : List GoString)
    (hk : rooted = true → k = 0) (hcs : ∀ c ∈ cs, IsName c = true)
    (hsegs : ∀ s ∈ segs, IsName s = true ∨ s = [] ∨ s = ['.']) :
    (ups k ++ cs ++ segs).foldl (cleanStep rooted) (0, []) =
      (k, cs ++ segs.filter IsName) := by
  have h1 : (ups k).foldl (cleanStep rooted) (0, []) = (k, []) := by
    cases rooted with
    | false => simpa using foldl_cleanStep_ups k 0
    | true =>
      rw [hk rfl]
      rfl
  have h2 := foldl_cleanStep_segments rooted cs (fun c hc => Or.inl (hcs c hc)) k []
  have h3 := foldl_cleanStep_segments rooted segs hsegs k cs
  rw [List.foldl_append, List.foldl_append, h1, h2, List.nil_append,
    List.filter_eq_self.mpr hcs, h3]

/-- Names, empty elements and `.` elements hold no separator. -/
theorem segments_no_separator (segs : List GoString)
    (hsegs : ∀ s ∈ segs, IsName s = true ∨ s = [] ∨ s = ['.']) :
    ∀ s ∈ segs, ∀ c ∈ s, c ≠ '/' := by
  intro s hs
  rcases hsegs s hs with h | h | h
  · exact ((isName_iff s).mp h).2.1
  · subst h; simp
  · subst h; decide

/-- The elements of a clean path followed by names, empty elements and `.`
elements hold no separator. -/
theorem root_no_separator (k : Nat) (cs segs : List GoString)
    (hcs : ∀ c ∈ cs, IsName c = true)
    (hsegs : ∀ s ∈ segs, IsName s = true ∨ s = [] ∨ s = ['.']) :
    ∀ s ∈ ups k ++ cs ++ segs, ∀ c ∈ s, c ≠ '/' := by
  intro s hs
  rcases List.mem_append.mp hs with h | h
  · exact (kept_pieces k cs hcs s h).2
  · exact segments_no_separator segs hsegs s h

/-- `Clean` of a rooted path that goes on, after names, with names, empty
elements and `.` elements. -/
theorem Clean_rooted_root (cs segs : List GoString) (hcs : ∀ c ∈ cs, IsName c = true)
    (hsegs : ∀ s ∈ segs, IsName s = true ∨ s = [] ∨ s = ['.']) :
    Clean ('/' :: joinSegments (cs ++ segs)) = cleanPath true (cs ++ segs.filter IsName) := by
  have h := Clean_rooted (ups 0 ++ cs ++ segs) (root_no_separator 0 cs segs hcs hsegs)
  rw [foldl_cleanStep_root true 0 cs segs (fun _ => rfl) hcs hsegs] at h
  simpa [ups] using h

/-- `Clean` of a relative path that goes on, after leading `..` elements and
names, with names, empty elements and `.` elements. -/
theorem Clean_relative_root (k : Nat) (cs segs : List GoString)
    (hcs : ∀ c ∈ cs, IsName c = true)
    (hsegs : ∀ s ∈ segs, IsName s = true ∨ s = [] ∨ s = ['.'])
    (hne : ∃ s rest, ups k ++ cs ++ segs = s :: rest ∧ s ≠ []) :
    Clean (joinSegments (ups k ++ cs ++ segs)) =
      cleanPath false (ups k ++ (cs ++ segs.filter IsName)) := by
  obtain ⟨s, rest, he, hs⟩ := hne
  have hsep := root_no_separator k cs segs hcs hsegs
  have hf := foldl_cleanStep_root false k cs segs (by simp) hcs hsegs
  rw [he] at hsep hf ⊢
  have h := Clean_relative s rest hs hsep
  rw [hf] at h
  exact h

/-- The first element of a clean path is not empty and starts with a byte
that is no separator. -/
theorem root_head (k : Nat) (cs : List GoString) (hcs : ∀ c ∈ cs, IsName c = true)
    (hp : ups k ++ cs ≠ []) :
    ∃ c s rest, ups k ++ cs = (c :: s) :: rest ∧ c ≠ '/' := by
  obtain ⟨x, rest, hx⟩ := List.exists_cons_of_ne_nil hp
  have h := kept_pieces k cs hcs x (by rw [hx]; exact List.mem_cons_self _ _)
  obtain ⟨c, s, rfl⟩ := List.exists_cons_of_ne_nil h.1
  exact ⟨c, s, rest, hx, h.2 c (List.mem_cons_self _ _)⟩

/-- The elements of a clean path joined are not the path `.`. -/
theorem root_ne_dot (k : Nat) (cs : List GoString) (hcs : ∀ c ∈ cs, IsName c = true) :
    joinSegments (ups k ++ cs) ≠ ['.'] := by
  have hp := kept_pieces k cs hcs
  have hd : ∀ s ∈ ups k ++ cs, s ≠ ['.'] := by
    intro s hs
    rcases List.mem_append.mp hs with h | h
    · rw [List.eq_of_mem_replicate h]; decide
    · exact ((isName_iff s).mp (hcs s h)).2.2.1
  cases hl : ups k ++ cs with
  | nil => simp [joinSegments]
  | cons s rest =>
    rw [hl] at hp hd
    cases rest with
    | nil => exact hd s (List.mem_cons_self _ _)
    | cons t rest2 =>
      have hj : joinSegments (s :: t :: rest2) = s ++ '/' :: joinSegments (t :: rest2) := rfl
      rw [hj]
      intro h
      have hl := congrArg List.length h
      have hpos : 0 < s.length := List.length_pos.mpr (hp s (List.mem_cons_self _ _)).1
      simp only [List.length_append, List.length_cons, List.length_nil] at hl
      omega

/-- The elements of a clean path joined do not start with a separator. -/
theorem root_not_slashed (k : Nat) (cs : List GoString) (hcs : ∀ c ∈ cs, IsName c = true) :
    (decide ((joinSegments (ups k ++ cs)).length > 0) &&
      byteAt (joinSegments (ups k ++ cs)) 0 == '/') = false := by
  by_cases hp : ups k ++ cs = []
  · rw [hp]; simp [joinSegments]
  · obtain ⟨c, s, rest, he, hc⟩ := root_head k cs hcs hp
    obtain ⟨u, hu⟩ := joinSegments_head c s rest
    rw [he, hu]
    simp [byteAt, hc]

/-- A path made of non-empty elements does not end in a separator. -/
theorem getLast_joinSegments (names : List GoString) (hne : names ≠ [])
    (hn : ∀ s ∈ names, s ≠ [] ∧ ∀ c ∈ s, c ≠ '/') :
    ∀ done : GoString, (done ++ joinSegments names).getLast?.any IsPathSeparator = false := by
  induction names with
  | nil => exact absurd rfl hne
  | cons s rest ih =>
    intro done
    have hs := hn s (List.mem_cons_self _ _)
    cases rest with
    | nil =>
      simp only [joinSegments]
      rw [List.getLast?_append_of_ne_nil _ hs.1]
      have hl : s.getLast? = some (s.getLast hs.1) := List.getLast?_eq_getLast _ hs.1
      rw [hl]
      have hm : s.getLast hs.1 ≠ '/' := hs.2 _ (List.getLast_mem hs.1)
      simp [IsPathSeparator, hm]
    | cons t rest2 =>
      have hj : joinSegments (s :: t :: rest2) = s ++ '/' :: joinSegments (t :: rest2) := rfl
      rw [hj]
      have e : done ++ (s ++ '/' :: joinSegments (t :: rest2)) =
          (done ++ s ++ ['/']) ++ joinSegments (t :: rest2) := by simp
      rw [e]
      exact ih (List.cons_ne_nil _ _) (fun x hx => hn x (List.mem_cons_of_mem _ hx)) _

/-- The elements of a clean relative path made of names: the names, or the
one element `.` when there are none. -/
theorem cleanPath_relative_pieces (ds : List GoString) (hds : ∀ d ∈ ds, IsName d = true) :
    ∃ pieces : List GoString, pieces ≠ [] ∧ cleanPath false ds = joinSegments pieces ∧
      (∀ x ∈ pieces, IsName x = true ∨ x = [] ∨ x = ['.']) ∧ pieces.filter IsName = ds ∧
      ∃ x rest, pieces = x :: rest ∧ x ≠ [] := by
  cases ds with
  | nil =>
    refine ⟨[['.']], by simp, rfl, ?_, by decide, ['.'], [], rfl, by simp⟩
    intro x hx
    rw [List.mem_singleton.mp hx]
    exact Or.inr (Or.inr rfl)
  | cons d rest =>
    refine ⟨d :: rest, by simp, by simp [cleanPath],
      fun x hx => Or.inl (hds x hx), List.filter_eq_self.mpr hds, d, rest, rfl,
      ((isName_iff d).mp (hds d (List.mem_cons_self _ _))).1⟩

/-- The empty element that a trailing separator adds is skipped. -/
theorem trailing_segments (trailing : Bool) (pieces : List GoString)
    (hp : ∀ x ∈ pieces, IsName x = true ∨ x = [] ∨ x = ['.']) :
    (∀ x ∈ (if trailing then [[]] else []) ++ pieces, IsName x = true ∨ x = [] ∨ x = ['.']) ∧
    ((if trailing then [[]] else []) ++ pieces).filter IsName = pieces.filter IsName := by
  have hf : IsName [] = false := by decide
  cases trailing
  · simpa using hp
  · refine ⟨?_, by simp [List.filter, hf]⟩
    intro x hx
    rcases List.mem_append.mp hx with h | h
    · simp at h
      exact Or.inr (Or.inl h)
    · exact hp x h

/-- A root with a trailing separator is the join of its elements and an empty
element. -/
theorem rootPath_trailing (rooted trailing : Bool) (root : List GoString) (hr : root ≠ []) :
    rootPath rooted trailing root =
      (if rooted then ['/'] else []) ++
        joinSegments (root ++ ((if trailing then [[]] else []) ++ [])) := by
  unfold rootPath
  cases trailing
  · simp
  · simp only [if_true, List.append_nil]
    rw [joinSegments_append _ _ hr (by simp)]
    simp [joinSegments]

/-- `Clean` of a clean root, with or without a trailing separator. -/
theorem Clean_rootPath (rooted trailing : Bool) (k : Nat) (cs : List GoString)
    (hk : rooted = true → k = 0) (hcs : ∀ c ∈ cs, IsName c = true)
    (htr : trailing = true → rooted = true ∨ ups k ++ cs ≠ []) :
    Clean (rootPath rooted trailing (ups k ++ cs)) = cleanPath rooted (ups k ++ cs) := by
  by_cases hp : ups k ++ cs = []
  · rw [hp]
    cases trailing with
    | false => cases rooted <;> decide
    | true =>
      have hr : rooted = true := by
        rcases htr rfl with h | h
        · exact h
        · exact absurd hp h
      subst hr
      decide
  · have hseg := trailing_segments trailing [] (by simp)
    rw [rootPath_trailing rooted trailing _ hp]
    cases rooted with
    | true =>
      have h0 := hk rfl
      subst h0
      have h := Clean_rooted_root cs ((if trailing then [[]] else []) ++ []) hcs hseg.1
      rw [hseg.2] at h
      simpa [ups] using h
    | false =>
      obtain ⟨c, s, rest, he, _⟩ := root_head k cs hcs hp
      have h := Clean_relative_root k cs ((if trailing then [[]] else []) ++ []) hcs hseg.1
        ⟨c :: s, rest ++ ((if trailing then [[]] else []) ++ []), by rw [he]; rfl, by simp⟩
      rw [hseg.2] at h
      simpa using h

/-- A clean path as a root without trailing separator. -/
theorem cleanPath_eq_rootPath (rooted : Bool) (root : List GoString)
    (h : rooted = true ∨ root ≠ []) : cleanPath rooted root = rootPath rooted false root := by
  cases rooted with
  | true => simp [cleanPath, rootPath]
  | false =>
    rcases h with h | h
    · exact absurd h (by simp)
    · cases root with
      | nil => exact absurd rfl h
      | cons s rest => simp [cleanPath, rootPath]

/-- `Clean` leaves a clean path as it is. -/
theorem Clean_cleanPath (rooted : Bool) (k : Nat) (cs : List GoString)
    (hk : rooted = true → k = 0) (hcs : ∀ c ∈ cs, IsName c = true) :
    Clean (cleanPath rooted (ups k ++ cs)) = cleanPath rooted (ups k ++ cs) := by
  by_cases h : rooted = true ∨ ups k ++ cs ≠ []
  · have hc := Clean_rootPath rooted false k cs hk hcs (by simp)
    rw [← cleanPath_eq_rootPath rooted _ h] at hc
    exact hc
  · simp only [not_or, not_not] at h
    have hr : rooted = false := by
      cases rooted
      · rfl
      · exact absurd rfl h.1
    rw [h.2, hr]
    decide

/-- The trailing-separator stripping of `isSubpath` on a clean root. -/
theorem stripTrailingSeparator_rootPath (rooted trailing : Bool) (k : Nat)
    (cs : List GoString) (hcs : ∀ c ∈ cs, IsName c = true)
    (htr : trailing = true → rooted = true ∨ ups k ++ cs ≠ []) :
    stripTrailingSeparator (rootPath rooted trailing (ups k ++ cs)) =
      rootPath rooted false (ups k ++ cs) := by
  by_cases hp : ups k ++ cs = []
  · rw [hp]
    cases trailing with
    | false => cases rooted <;> decide
    | true =>
      have hr : rooted = true := by
        rcases htr rfl with h | h
        · exact h
        · exact absurd hp h
      subst hr
      decide
  · have hlast := getLast_joinSegments (ups k ++ cs) hp (kept_pieces k cs hcs)
      (if rooted then ['/'] else [])
    have hx : rootPath rooted false (ups k ++ cs) =
        (if rooted then ['/'] else []) ++ joinSegments (ups k ++ cs) := by simp [rootPath]
    cases trailing with
    | false =>
      apply stripTrailingSeparator_of_no_separator
      rw [hx]; exact hlast
    | true =>
      have e : rootPath rooted true (ups k ++ cs) =
          rootPath rooted false (ups k ++ cs) ++ ['/'] := by
        simp [rootPath]
      rw [e]
      apply stripTrailingSeparator_append
      rw [hx]
      obtain ⟨c, s, rest, he, _⟩ := root_head k cs hcs hp
      obtain ⟨u, hu⟩ := joinSegments_head c s rest
      rw [he, hu]
      cases rooted <;> simp

/-- The trailing-separator stripping of `isSubpath` leaves a clean path as it is. -/
theorem stripTrailingSeparator_cleanPath (rooted : Bool) (k : Nat) (cs : List GoString)
    (hcs : ∀ c ∈ cs, IsName c = true) :
    stripTrailingSeparator (cleanPath rooted (ups k ++ cs)) = cleanPath rooted (ups k ++ cs) := by
  by_cases h : rooted = true ∨ ups k ++ cs ≠ []
  · have hc := stripTrailingSeparator_rootPath rooted false k cs hcs (by simp)
    rw [← cleanPath_eq_rootPath rooted _ h] at hc
    exact hc
  · simp only [not_or, not_not] at h
    have hr : rooted = false := by
      cases rooted
      · rfl
      · exact absurd rfl h.1
    rw [h.2, hr]
    decide

/-- `Join` of a clean root, with or without a trailing separator, and a clean
relative path made of names is the clean path of all the elements. -/
theorem Join_rootPath (rooted trailing : Bool) (k : Nat) (cs ds : List GoString)
    (hk : rooted = true → k = 0) (hcs : ∀ c ∈ cs, IsName c = true)
    (htr : trailing = true → rooted = true ∨ ups k ++ cs ≠ [])
    (hds : ∀ d ∈ ds, IsName d = true) :
    Join (rootPath rooted trailing (ups k ++ cs)) (cleanPath false ds) =
      cleanPath rooted (ups k ++ (cs ++ ds)) := by
  obtain ⟨pieces, hpne, hp, hpseg, hpf, x, prest, hpx, hx⟩ := cleanPath_relative_pieces ds hds
  have hseg := trailing_segments trailing pieces hpseg
  rw [hpf] at hseg
  by_cases hroot : ups k ++ cs = []
  · have hcs0 : cs = [] := (List.append_eq_nil.mp hroot).2
    have hk0 : k = 0 := (ups_eq_nil k).mp (List.append_eq_nil.mp hroot).1
    subst hcs0 hk0
    have hr : rooted = true ∨ trailing = false := by
      cases trailing
      · exact Or.inr rfl
      · rcases htr rfl with h | h
        · exact Or.inl h
        · exact absurd hroot h
    cases rooted with
    | false =>
      -- the empty root
      have ht : trailing = false := by
        rcases hr with h | h
        · exact absurd h (by simp)
        · exact h
      subst ht
      have hpn : cleanPath false ds ≠ [] := by
        rw [hp, hpx]
        obtain ⟨c, x2, rfl⟩ := List.exists_cons_of_ne_nil hx
        obtain ⟨u, hu⟩ := joinSegments_head c x2 prest
        rw [hu]; simp
      have hb : (cleanPath false ds != []) = true := by simpa using hpn
      have hj : Join (rootPath false false (ups 0 ++ [])) (cleanPath false ds) =
          Clean (cleanPath false ds) := by
        simp only [Join, rootPath, ups, List.replicate, joinSegments, List.append_nil,
          bne_self_eq_false, Bool.false_eq_true, if_false, hb, if_true]
      have h := Clean_relative_root 0 [] pieces (by simp) hpseg ⟨x, prest, by simp [ups, hpx], hx⟩
      rw [hpf] at h
      rw [hj, hp]
      simpa [ups] using h
    | true =>
      -- the roots `/` and `//`
      have e : rootPath true trailing (ups 0 ++ []) ++ ['/'] ++ cleanPath false ds =
          '/' :: joinSegments ([] ++ ([] :: ((if trailing then [[]] else []) ++ pieces))) := by
        rw [hp, hpx]
        cases trailing <;> rfl
      have hseg2 : ∀ s ∈ ([] : GoString) :: ((if trailing then [[]] else []) ++ pieces),
          IsName s = true ∨ s = [] ∨ s = ['.'] := by
        intro s hs
        rcases List.mem_cons.mp hs with h | h
        · exact Or.inr (Or.inl h)
        · exact hseg.1 s h
      have hne : (rootPath true trailing (ups 0 ++ []) != []) = true := by
        cases trailing <;> decide
      have hf : IsName [] = false := by decide
      simp only [Join, hne, if_true]
      rw [e, Clean_rooted_root [] _ (by simp) hseg2]
      simp [List.filter, hf, hseg.2, ups]
  · obtain ⟨c, s, rest, he, _⟩ := root_head k cs hcs hroot
    have hjunk := trailing_segments trailing [] (by simp)
    have e : rootPath rooted trailing (ups k ++ cs) ++ ['/'] ++ cleanPath false ds =
        (if rooted then ['/'] else []) ++
          joinSegments (ups k ++ cs ++ ((if trailing then [[]] else []) ++ pieces)) := by
      rw [hp, joinSegments_append _ _ hroot (by simp [hpne])]
      unfold rootPath
      cases trailing
      · simp
      · simp only [if_true, List.singleton_append, hpx]
        have hj : joinSegments ([] :: x :: prest) = '/' :: joinSegments (x :: prest) := rfl
        rw [hj]
        simp
    have hne : (rootPath rooted trailing (ups k ++ cs) != []) = true := by
      obtain ⟨u, hu⟩ := joinSegments_head c s rest
      simp only [rootPath, he, hu]
      cases rooted <;> simp
    simp only [Join, hne, if_true]
    rw [e]
    cases rooted with
    | true =>
      have h0 := hk rfl
      subst h0
      have h := Clean_rooted_root cs ((if trailing then [[]] else []) ++ pieces) hcs hseg.1
      rw [hseg.2] at h
      simpa [ups] using h
    | false =>
      have h := Clean_relative_root k cs ((if trailing then [[]] else []) ++ pieces) hcs hseg.1
        ⟨c :: s, rest ++ ((if trailing then [[]] else []) ++ pieces), by rw [he]; rfl, by simp⟩
      rw [hseg.2] at h
      simpa using h

/-- The clean path of the root's elements and further names, in terms of the root. -/
theorem cleanPath_append (rooted : Bool) (c d : GoString) (cs ds : List GoString) :
    cleanPath rooted ((c :: cs) ++ (d :: ds)) =
      rootPath rooted false (c :: cs) ++ '/' :: joinSegments (d :: ds) := by
  rw [List.cons_append]
  have h : joinSegments (c :: (cs ++ d :: ds)) =
      joinSegments (c :: cs) ++ '/' :: joinSegments (d :: ds) := by
    rw [← List.cons_append, joinSegments_append _ _ (List.cons_ne_nil _ _) (List.cons_ne_nil _ _)]
  cases rooted <;> simp [cleanPath, rootPath, h]

/-- A string starts with each of its initial parts (`strings.HasPrefix`). -/
theorem isPrefixOf_append (a b : GoString) : a.isPrefixOf (a ++ b) = true := by
  induction a with
  | nil => simp
  | cons c a ih => simp [ih]

/-- The root, stripped, is a string prefix of the joined path. -/
theorem rootPath_isPrefixOf (rooted : Bool) (cs ds : List GoString) :
    (rootPath rooted false cs).isPrefixOf (cleanPath rooted (cs ++ ds)) = true := by
  cases cs with
  | nil =>
    cases rooted
    · simp [rootPath, joinSegments]
    · exact isPrefixOf_append ['/'] (joinSegments ([] ++ ds))
  | cons c cs2 =>
    cases ds with
    | nil =>
      rw [List.append_nil]
      have h : cleanPath rooted (c :: cs2) = rootPath rooted false (c :: cs2) ++ [] := by
        cases rooted <;> simp [rootPath, cleanPath]
      rw [h]
      exact isPrefixOf_append _ _
    | cons d ds2 =>
      rw [cleanPath_append]
      exact isPrefixOf_append _ _

/-- `Rel` of two paths that clean to the same path is `.`. -/
theorem Rel_same (basepath targpath : GoString) (h : Clean targpath = Clean basepath) :
    Rel basepath targpath = some ['.'] := by
  unfold Rel
  simp [h]

/-- `Rel` from a clean root, with or without a trailing separator, to the
joined path gives back the relative path. -/
theorem Rel_rootPath (rooted trailing : Bool) (k : Nat) (cs ds : List GoString)
    (hk : rooted = true → k = 0) (hcs : ∀ c ∈ cs, IsName c = true)
    (htr : trailing = true → rooted = true ∨ ups k ++ cs ≠ [])
    (hds : ∀ d ∈ ds, IsName d = true) :
    Rel (rootPath rooted trailing (ups k ++ cs)) (cleanPath rooted (ups k ++ (cs ++ ds))) =
      some (cleanPath false ds) := by
  have hall : ∀ s ∈ cs ++ ds, IsName s = true := by
    intro s hs
    rcases List.mem_append.mp hs with h | h
    · exact hcs s h
    · exact hds s h
  have hR := Clean_rootPath rooted trailing k cs hk hcs htr
  have hE := Clean_cleanPath rooted k (cs ++ ds) hk hall
  rw [← List.append_assoc] at hE ⊢
  cases ds with
  | nil =>
    rw [List.append_nil] at hE ⊢
    rw [Rel_same _ _ (hE.trans hR.symm)]
    rfl
  | cons d ds2 =>
    have hd := (isName_iff d).mp (hds d (List.mem_cons_self _ _))
    obtain ⟨d0, d2, hd0⟩ := List.exists_cons_of_ne_nil hd.1
    obtain ⟨ud, hud⟩ := joinSegments_head d0 d2 ds2
    rw [← hd0] at hud
    have hd0c : d0 ≠ '/' := hd.2.1 d0 (by rw [hd0]; exact List.mem_cons_self _ _)
    have hp : cleanPath false (d :: ds2) = joinSegments (d :: ds2) := by simp [cleanPath]
    have hdsl := root_not_slashed 0 (d :: ds2) hds
    simp only [ups, List.replicate, List.nil_append] at hdsl
    have hdne := root_ne_dot 0 (d :: ds2) hds
    simp only [ups, List.replicate, List.nil_append] at hdne
    rw [hp]
    by_cases hroot : ups k ++ cs = []
    · rw [hroot] at hR hE ⊢
      cases rooted with
      | false =>
        -- the empty root
        have h := Rel_of_relLoop (rootPath false trailing []) (cleanPath false ([] ++ d :: ds2))
          [] (joinSegments (d :: ds2)) 0 0
          (by rw [hR]; rfl) (by rw [hE]; simp [cleanPath])
          (by rw [hR]; exact hdne)
          (by rw [hdsl]; rfl)
          (by simp [relLoop])
        simpa using h
      | true =>
        -- the roots `/` and `//`
        have hloop : relLoop ['/'] ('/' :: joinSegments (d :: ds2)) (['/'].length + 1) 0 0 0 0 =
            (['/'].length, ['/'].length, 1, 1) := by
          have h := relLoop_shared [] [] [] (joinSegments (d :: ds2)) 1 0 0 (by simp)
          simp only [List.nil_append, List.length_nil] at h
          rw [show (['/'] : GoString).length + 1 = 1 + 1 from rfl, h]
          simp [relLoop]
        have h := Rel_of_relLoop (rootPath true trailing []) (cleanPath true ([] ++ d :: ds2))
          ['/'] ('/' :: joinSegments (d :: ds2)) 1 1
          (by rw [hR]; rfl) (by rw [hE]; simp [cleanPath])
          (by rw [hR, hud]; simp [cleanPath, joinSegments])
          (by simp [byteAt]) hloop
        simpa using h
    · obtain ⟨c0, c2, cs2, he, hc0⟩ := root_head k cs hcs hroot
      have hpieces := kept_pieces k cs hcs
      have hdot := root_ne_dot k cs hcs
      rw [he] at hR hE hpieces hdot ⊢
      have hX : rootPath rooted false ((c0 :: c2) :: cs2) =
          (if rooted then ['/'] else []) ++ joinSegments ((c0 :: c2) :: cs2) := by
        simp [rootPath]
      have hcp : cleanPath rooted ((c0 :: c2) :: cs2) =
          rootPath rooted false ((c0 :: c2) :: cs2) :=
        cleanPath_eq_rootPath rooted _ (Or.inr (List.cons_ne_nil _ _))
      have hbase : (if Clean (rootPath rooted trailing ((c0 :: c2) :: cs2)) == ['.'] then []
          else Clean (rootPath rooted trailing ((c0 :: c2) :: cs2))) =
          rootPath rooted false ((c0 :: c2) :: cs2) := by
        rw [hR, hcp]
        have hne : rootPath rooted false ((c0 :: c2) :: cs2) ≠ ['.'] := by
          rw [hX]
          cases rooted
          · simpa using hdot
          · simp
        simp [hne]
      have htarg : Clean (cleanPath rooted (((c0 :: c2) :: cs2) ++ d :: ds2)) =
          rootPath rooted false ((c0 :: c2) :: cs2) ++ '/' :: joinSegments (d :: ds2) := by
        rw [hE, cleanPath_append]
      have hne : rootPath rooted false ((c0 :: c2) :: cs2) ++ '/' :: joinSegments (d :: ds2) ≠
          Clean (rootPath rooted trailing ((c0 :: c2) :: cs2)) := by
        rw [hR, hcp]
        intro h
        have hl := congrArg List.length h
        simp only [List.length_append, List.length_cons] at hl
        omega
      have hsl : (decide ((rootPath rooted false ((c0 :: c2) :: cs2)).length > 0) &&
            byteAt (rootPath rooted false ((c0 :: c2) :: cs2)) 0 == '/') =
          (decide ((rootPath rooted false ((c0 :: c2) :: cs2) ++
              '/' :: joinSegments (d :: ds2)).length > 0) &&
            byteAt (rootPath rooted false ((c0 :: c2) :: cs2) ++
              '/' :: joinSegments (d :: ds2)) 0 == '/') := by
        obtain ⟨u, hu⟩ := joinSegments_head c0 c2 cs2
        rw [hX, hu]
        cases rooted <;> simp [byteAt]
      have hloop : relLoop (rootPath rooted false ((c0 :: c2) :: cs2))
          (rootPath rooted false ((c0 :: c2) :: cs2) ++ '/' :: joinSegments (d :: ds2))
          ((rootPath rooted false ((c0 :: c2) :: cs2)).length + 1) 0 0 0 0 =
          ((rootPath rooted false ((c0 :: c2) :: cs2)).length,
            (rootPath rooted false ((c0 :: c2) :: cs2)).length,
            (rootPath rooted false ((c0 :: c2) :: cs2)).length + 1,
            (rootPath rooted false ((c0 :: c2) :: cs2)).length + 1) := by
        have hlen := length_le_joinSegments ((c0 :: c2) :: cs2)
          (fun s hs => (hpieces s hs).1)
        rw [hX]
        cases rooted with
        | false =>
          have h := relLoop_names ((c0 :: c2) :: cs2) (List.cons_ne_nil _ _) hpieces []
            (joinSegments (d :: ds2)) ((joinSegments ((c0 :: c2) :: cs2)).length + 1) 0 0
            (by omega)
          simpa using h
        | true =>
          have h1 := relLoop_shared [] [] (joinSegments ((c0 :: c2) :: cs2))
            (joinSegments ((c0 :: c2) :: cs2) ++ '/' :: joinSegments (d :: ds2))
            ((joinSegments ((c0 :: c2) :: cs2)).length + 1) 0 0 (by simp)
          have h2 := relLoop_names ((c0 :: c2) :: cs2) (List.cons_ne_nil _ _) hpieces ['/']
            (joinSegments (d :: ds2)) ((joinSegments ((c0 :: c2) :: cs2)).length + 1) 1 1
            (by omega)
          simp only [List.nil_append, List.length_nil, Nat.zero_add] at h1
          simp only [List.singleton_append, List.length_singleton] at h2
          simp only [List.length_cons] at h2
          simp only [if_true, List.singleton_append, List.length_cons, List.cons_append,
            List.nil_append]
          rw [h1]
          exact h2
      have h := Rel_of_relLoop _ _ _ _ _ _ hbase htarg hne hsl hloop
      rw [h]
      simp

/-- The trailing-separator stripping of `isSubpath` removes nothing or one
trailing separator. -/
theorem stripTrailingSeparator_cases (s : GoString) :
    stripTrailingSeparator s = s ∨ s = stripTrailingSeparator s ++ ['/'] := by
  unfold stripTrailingSeparator
  by_cases h : (decide (s.length > 1) && s.getLast?.any IsPathSeparator) = true
  · right
    rw [if_pos h]
    simp only [Bool.and_eq_true, decide_eq_true_eq] at h
    have hne : s ≠ [] := by
      intro h0
      rw [h0] at h
      simp at h
    have hl : s.getLast? = some (s.getLast hne) := List.getLast?_eq_getLast _ hne
    have h2 := h.2
    rw [hl] at h2
    simp only [Option.any_some, IsPathSeparator, beq_iff_eq] at h2
    rw [← h2]
    exact (List.dropLast_append_getLast hne).symm
  · left
    rw [if_neg h]

/-- A root that, apart from one trailing separator, is a clean path other than
`.`, or is empty, is given by the elements of a clean path. -/
theorem rootPath_of_clean (root : GoString)
    (hroot : root = [] ∨
      (Clean (stripTrailingSeparator root) = stripTrailingSeparator root ∧
        stripTrailingSeparator root ≠ ['.'])) :
    ∃ (rooted trailing : Bool) (k : Nat) (cs : List GoString),
      (rooted = true → k = 0) ∧ (∀ c ∈ cs, IsName c = true) ∧
      (trailing = true → rooted = true ∨ ups k ++ cs ≠ []) ∧
      root = rootPath rooted trailing (ups k ++ cs) := by
  rcases hroot with h | ⟨hc, hd⟩
  · exact ⟨false, false, 0, [], by simp, by simp, by simp, by rw [h]; rfl⟩
  · obtain ⟨k, cs, hk, hcs, hform⟩ := Clean_form (stripTrailingSeparator root)
    rw [hc] at hform
    have hne : IsPathSeparator (byteAt (stripTrailingSeparator root) 0) = true ∨
        ups k ++ cs ≠ [] := by
      by_cases hr : IsPathSeparator (byteAt (stripTrailingSeparator root) 0) = true
      · exact Or.inl hr
      · right
        intro h0
        simp only [Bool.not_eq_true] at hr
        rw [hr, h0] at hform
        exact hd hform
    rw [cleanPath_eq_rootPath _ _ hne] at hform
    rcases stripTrailingSeparator_cases root with h | h
    · exact ⟨_, false, k, cs, hk, hcs, by simp, by rw [← hform, h]⟩
    · refine ⟨_, true, k, cs, hk, hcs, fun _ => hne, ?_⟩
      have e : ∀ (r : Bool) (l : List GoString),
          rootPath r true l = rootPath r false l ++ ['/'] := by
        intro r l
        simp [rootPath]
      rw [e, ← hform]
      exact h

/-- A clean relative path that is not `..` and does not begin with `../` is
`.` or made of names. -/
theorem cleanPath_of_clean (p : GoString) (hclean : Clean p = p)
    (hrel : IsPathSeparator (byteAt p 0) = false)
    (hup : p ≠ ['.', '.'] ∧ ['.', '.', '/'].isPrefixOf p = false) :
    ∃ ds : List GoString, (∀ d ∈ ds, IsName d = true) ∧ p = cleanPath false ds := by
  obtain ⟨k, ds, _, hds, hform⟩ := Clean_form p
  rw [hclean, hrel] at hform
  cases k with
  | zero => exact ⟨ds, hds, by simpa [ups] using hform⟩
  | succ k =>
    exfalso
    have e : ups (k + 1) ++ ds = ['.', '.'] :: (ups k ++ ds) := rfl
    rw [e] at hform
    cases hrest : ups k ++ ds with
    | nil =>
      rw [hrest] at hform
      exact hup.1 (by simpa [cleanPath, joinSegments] using hform)
    | cons t rest =>
      rw [hrest] at hform
      have h2 := hup.2
      rw [hform] at h2
      simp [cleanPath, joinSegments] at h2

end Filepath

/-- A joined path passes the prefix test of `isSubpath` against its root. -/
theorem isSubpath_Join_rootPath (rooted trailing : Bool) (k : Nat) (cs ds : List GoString)
    (hk : rooted = true → k = 0) (hcs : ∀ c ∈ cs, Filepath.IsName c = true)
    (htr : trailing = true → rooted = true ∨ Filepath.ups k ++ cs ≠ [])
    (hds : ∀ d ∈ ds, Filepath.IsName d = true) :
    isSubpath
      (Filepath.Join (Filepath.rootPath rooted trailing (Filepath.ups k ++ cs))
        (Filepath.cleanPath false ds))
      (Filepath.rootPath rooted trailing (Filepath.ups k ++ cs)) = true := by
  have hall : ∀ s ∈ cs ++ ds, Filepath.IsName s = true := by
    intro s hs
    rcases List.mem_append.mp hs with h | h
    · exact hcs s h
    · exact hds s h
  unfold isSubpath
  simp only []
  rw [Filepath.Join_rootPath rooted trailing k cs ds hk hcs htr hds,
    Filepath.stripTrailingSeparator_cleanPath rooted k _ hall,
    Filepath.stripTrailingSeparator_rootPath rooted trailing k cs hcs htr,
    ← List.append_assoc]
  exact Filepath.rootPath_isPrefixOf rooted _ ds

/-- With Go's `filepath.Rel`, the path of a joined path relative to its root is
the path that was joined. -/
theorem goEnv_Rel_Join_rootPath (isTemporary : GoString → Bool) (rooted trailing : Bool)
    (k : Nat) (cs ds : List GoString) (hk : rooted = true → k = 0)
    (hcs : ∀ c ∈ cs, Filepath.IsName c = true)
    (htr : trailing = true → rooted = true ∨ Filepath.ups k ++ cs ≠ [])
    (hds : ∀ d ∈ ds, Filepath.IsName d = true) :
    (goEnv isTemporary).Rel (Filepath.rootPath rooted trailing (Filepath.ups k ++ cs))
      (Filepath.Join (Filepath.rootPath rooted trailing (Filepath.ups k ++ cs))
        (Filepath.cleanPath false ds)) =
      Filepath.cleanPath false ds := by
  simp only [goEnv]
  rw [Filepath.Join_rootPath rooted trailing k cs ds hk hcs htr hds,
    Filepath.Rel_rootPath rooted trailing k cs ds hk hcs htr hds]
  rfl

/-- An event path that passes the prefix test and whose relative path is
neither filtered nor in progress is stored under its relative path. -/
theorem selectCase_fsEvent_of_isSubpath (env : Env) (w : FsWatcher) (eventPath : GoString)
    (hsub : isSubpath eventPath w.folderPath = true)
    (hign : shouldIgnore env w (env.Rel w.folderPath eventPath) = false)
    (hprog : pathInProgress w (env.Rel w.folderPath eventPath) = false) :
    newFsEvent env w eventPath = some ⟨env.Rel w.folderPath eventPath⟩ ∧
    (selectCase env w (Select.fsEvent eventPath)).fsEvents =
      w.fsEvents.set (env.Rel w.folderPath eventPath) ⟨env.Rel w.folderPath eventPath⟩ := by
  have hnew : newFsEvent env w eventPath = some ⟨env.Rel w.folderPath eventPath⟩ := by
    simp [newFsEvent, hsub, hign]
  have hprog2 : pathInProgress (speedUpNotifyTimer w) (env.Rel w.folderPath eventPath) = false := by
    unfold speedUpNotifyTimer
    split <;> exact hprog
  have hfs : (speedUpNotifyTimer w).fsEvents = w.fsEvents := by
    unfold speedUpNotifyTimer
    split <;> rfl
  exact ⟨hnew, by simp [selectCase, onFsEvent, hnew, storeFsEvent, hprog2, hfs]⟩

/-! ### The claims -/

/-- C1. Coalescing: start from an empty pending batch and let the loop process
any sequence of raw events and item-lifecycle notifications, with no timer fire
among them.  The next timer fire then sends at most one batch: the pending
batch if it has an entry, nothing otherwise.  The keys of that batch are
exactly the relative paths of the raw events that were inside the root, passed
the ignore/temporary filter, and were not in the in-progress registry when they
were processed; so a batch is sent exactly when there was such an event. -/
theorem coalescing (env : Env) (w : FsWatcher) (inputs : List Select)
    (hempty : w.fsEvents = []) (hnt : Select.timer ∉ inputs) :
    (loopIteration env (runLoop env w inputs) Select.timer).notifyModelChan =
      w.notifyModelChan ++
        (if (runLoop env w inputs).fsEvents.len > 0 then [(runLoop env w inputs).fsEvents]
         else []) ∧
    (loopIteration env (runLoop env w inputs) Select.timer).fsEvents = [] ∧
    ∀ p, p ∈ (runLoop env w inputs).fsEvents.keys ↔
      ∃ pre e post, inputs = pre ++ Select.fsEvent e :: post ∧
        isSubpath e w.folderPath = true ∧
        shouldIgnore env w (env.Rel w.folderPath e) = false ∧
        env.Rel w.folderPath e = p ∧
        pathInProgress (runLoop env w pre) p = false := by
  have ht := loopIteration_timer env (runLoop env w inputs)
  refine ⟨?_, ht.2.1, ?_⟩
  · rw [ht.1, runLoop_notifyModelChan env w inputs hnt]
  · intro p
    rw [runLoop_keys env w inputs hnt p, hempty]
    simp [FsEventsBatch.keys]

/-- Scenario E: the two raw events of `scenarioBurst` end up in one batch. -/
theorem coalescing_witness :
    (loopIteration scenarioEnv (runLoop scenarioEnv scenarioWatcher scenarioBurst)
      Select.timer).notifyModelChan =
      [[("b.txt".toList, ⟨"b.txt".toList⟩), ("a.txt".toList, ⟨"a.txt".toList⟩)]] ∧
    ((loopIteration scenarioEnv (runLoop scenarioEnv scenarioWatcher scenarioBurst)
        Select.timer).notifyModelChan =
      scenarioWatcher.notifyModelChan ++
        (if (runLoop scenarioEnv scenarioWatcher scenarioBurst).fsEvents.len > 0 then
          [(runLoop scenarioEnv scenarioWatcher scenarioBurst).fsEvents]
         else []) ∧
    (loopIteration scenarioEnv (runLoop scenarioEnv scenarioWatcher scenarioBurst)
      Select.timer).fsEvents = [] ∧
    ∀ p, p ∈ (runLoop scenarioEnv scenarioWatcher scenarioBurst).fsEvents.keys ↔
      ∃ pre e post, scenarioBurst = pre ++ Select.fsEvent e :: post ∧
        isSubpath e scenarioWatcher.folderPath = true ∧
        shouldIgnore scenarioEnv scenarioWatcher
          (scenarioEnv.Rel scenarioWatcher.folderPath e) = false ∧
        scenarioEnv.Rel scenarioWatcher.folderPath e = p ∧
        pathInProgress (runLoop scenarioEnv scenarioWatcher pre) p = false) :=
  ⟨by decide, coalescing scenarioEnv scenarioWatcher scenarioBurst rfl (by decide)⟩

/-- C2. Timer fire: a non-empty pending batch is sent, as it is, to the
downstream consumer and `notifyDelay` keeps its value; an empty pending batch
sends nothing and `notifyDelay` becomes the slow delay; either way the pending
batch is empty afterwards and `notifyTimerNeedsReset` is set. -/
theorem actOnTimer_spec (w : FsWatcher) :
    (w.fsEvents ≠ [] →
        (actOnTimer w).notifyModelChan = w.notifyModelChan ++ [w.fsEvents] ∧
        (actOnTimer w).notifyDelay = w.notifyDelay) ∧
    (w.fsEvents = [] →
        (actOnTimer w).notifyModelChan = w.notifyModelChan ∧
        (actOnTimer w).notifyDelay = slowNotifyDelay) ∧
    (actOnTimer w).fsEvents = [] ∧
    (actOnTimer w).notifyTimerNeedsReset = true := by
  refine ⟨?_, ?_, ?_, ?_⟩
  · intro h
    have hl : 0 < w.fsEvents.length := List.length_pos.mpr h
    simp [actOnTimer, FsEventsBatch.len, hl]
  · intro h
    simp only [actOnTimer, FsEventsBatch.len, h, List.length_nil, lt_self_iff_false,
      if_false, slowDownNotifyTimer]
    split <;> simp_all
  · simp [actOnTimer]
  · simp only [actOnTimer, FsEventsBatch.len, slowDownNotifyTimer]
    split
    · rfl
    · split <;> rfl

/-- A timer fire with `a/b.txt` pending, and one with nothing pending. -/
theorem actOnTimer_spec_witness :
    ((actOnTimer (storeFsEvent scenarioWatcher ⟨"a/b.txt".toList⟩)).notifyModelChan =
        (storeFsEvent scenarioWatcher ⟨"a/b.txt".toList⟩).notifyModelChan ++
          [(storeFsEvent scenarioWatcher ⟨"a/b.txt".toList⟩).fsEvents] ∧
      (actOnTimer (storeFsEvent scenarioWatcher ⟨"a/b.txt".toList⟩)).notifyDelay =
        (storeFsEvent scenarioWatcher ⟨"a/b.txt".toList⟩).notifyDelay) ∧
    ((actOnTimer scenarioWatcher).notifyModelChan = scenarioWatcher.notifyModelChan ∧
      (actOnTimer scenarioWatcher).notifyDelay = slowNotifyDelay) :=
  ⟨(actOnTimer_spec (storeFsEvent scenarioWatcher ⟨"a/b.txt".toList⟩)).1 (by decide),
   (actOnTimer_spec scenarioWatcher).2.1 rfl⟩

/-- C3. In-progress suppression: an event whose path is in the in-progress
registry when it is stored leaves the watcher, and so its pending batch, as it
was: no entry is added and none is altered.  The same holds for the raw event
it came from: processing it leaves the pending batch as it was. -/
theorem storeFsEvent_inProgress (w : FsWatcher) (event : FsEvent)
    (h : pathInProgress w event.path = true) :
    storeFsEvent w event = w ∧
    (storeFsEvent w event).fsEvents = w.fsEvents ∧
    ∀ (env : Env) (eventPath : GoString), env.Rel w.folderPath eventPath = event.path →
      (selectCase env w (Select.fsEvent eventPath)).fsEvents = w.fsEvents := by
  have hs : storeFsEvent w event = w := by simp [storeFsEvent, h]
  refine ⟨hs, by rw [hs], ?_⟩
  intro env eventPath hrel
  show (onFsEvent env w eventPath).fsEvents = w.fsEvents
  rw [onFsEvent_fsEvents, hrel, if_neg]
  intro hc
  rw [h] at hc
  exact Bool.noConfusion hc.2.2

/-- Scenario C, first half: `docs/report.txt` is in progress, its event is dropped. -/
theorem storeFsEvent_inProgress_witness :
    (selectCase scenarioEnv scenarioInProgress
      (Select.fsEvent "/r/docs/report.txt".toList)).fsEvents = scenarioInProgress.fsEvents ∧
    storeFsEvent scenarioInProgress ⟨"docs/report.txt".toList⟩ = scenarioInProgress ∧
    (storeFsEvent scenarioInProgress ⟨"docs/report.txt".toList⟩).fsEvents =
      scenarioInProgress.fsEvents :=
  ⟨(storeFsEvent_inProgress scenarioInProgress ⟨"docs/report.txt".toList⟩ (by decide)).2.2
      scenarioEnv "/r/docs/report.txt".toList (by decide),
   (storeFsEvent_inProgress scenarioInProgress ⟨"docs/report.txt".toList⟩ (by decide)).1,
   (storeFsEvent_inProgress scenarioInProgress ⟨"docs/report.txt".toList⟩ (by decide)).2.1⟩

/-- C4. Outside-root rejection: when, after one trailing separator is
stripped from each side (from a side longer than one byte), the root is not a
string prefix of the raw event path, `newFsEvent` returns nil and the event
leaves the whole watcher state (pending batch, `notifyDelay`,
`notifyTimerNeedsReset`) as it was. -/
theorem newFsEvent_outside_root (env : Env) (w : FsWatcher) (eventPath : GoString)
    (h : (stripTrailingSeparator w.folderPath).isPrefixOf
          (stripTrailingSeparator eventPath) = false) :
    newFsEvent env w eventPath = none ∧
    selectCase env w (Select.fsEvent eventPath) = w ∧
    (selectCase env w (Select.fsEvent eventPath)).fsEvents = w.fsEvents ∧
    (selectCase env w (Select.fsEvent eventPath)).notifyDelay = w.notifyDelay ∧
    (selectCase env w (Select.fsEvent eventPath)).notifyTimerNeedsReset =
      w.notifyTimerNeedsReset := by
  have hsub : isSubpath eventPath w.folderPath = false := h
  have hnil : newFsEvent env w eventPath = none := by simp [newFsEvent, hsub]
  have hsame : selectCase env w (Select.fsEvent eventPath) = w := by
    simp [selectCase, onFsEvent, hnil]
  exact ⟨hnil, hsame, by rw [hsame], by rw [hsame], by rw [hsame]⟩

/-- Scenario B: root `/r` and event path `/other/x.txt`. -/
theorem newFsEvent_outside_root_witness :
    newFsEvent scenarioEnv scenarioWatcher "/other/x.txt".toList = none ∧
    selectCase scenarioEnv scenarioWatcher (Select.fsEvent "/other/x.txt".toList) =
      scenarioWatcher ∧
    (selectCase scenarioEnv scenarioWatcher (Select.fsEvent "/other/x.txt".toList)).fsEvents =
      scenarioWatcher.fsEvents ∧
    (selectCase scenarioEnv scenarioWatcher (Select.fsEvent "/other/x.txt".toList)).notifyDelay =
      scenarioWatcher.notifyDelay ∧
    (selectCase scenarioEnv scenarioWatcher
      (Select.fsEvent "/other/x.txt".toList)).notifyTimerNeedsReset =
      scenarioWatcher.notifyTimerNeedsReset :=
  newFsEvent_outside_root scenarioEnv scenarioWatcher "/other/x.txt".toList (by decide)

/-- C5. Filter rejection: when the event path is inside the root and its
relative path is matched by the ignore filter or recognised as temporary,
`newFsEvent` returns nil; the event inserts nothing and leaves the whole
watcher state, the debounce state included, as it was. -/
theorem newFsEvent_filtered (env : Env) (w : FsWatcher) (eventPath : GoString)
    (hsub : isSubpath eventPath w.folderPath = true)
    (h : w.ignores (env.Rel w.folderPath eventPath) = true ∨
         env.IsTemporary (env.Rel w.folderPath eventPath) = true) :
    newFsEvent env w eventPath = none ∧
    selectCase env w (Select.fsEvent eventPath) = w := by
  have hign : shouldIgnore env w (env.Rel w.folderPath eventPath) = true := by
    simpa [shouldIgnore] using h
  have hnil : newFsEvent env w eventPath = none := by simp [newFsEvent, hsub, hign]
  exact ⟨hnil, by simp [selectCase, onFsEvent, hnil]⟩

/-- Scenario D: the temporary name `~tmp123` under root `/r`. -/
theorem newFsEvent_filtered_witness :
    scenarioEnv.Rel scenarioWatcher.folderPath "/r/~tmp123".toList = "~tmp123".toList ∧
    newFsEvent scenarioEnv scenarioWatcher "/r/~tmp123".toList = none ∧
    selectCase scenarioEnv scenarioWatcher (Select.fsEvent "/r/~tmp123".toList) =
      scenarioWatcher :=
  ⟨by decide,
   newFsEvent_filtered scenarioEnv scenarioWatcher "/r/~tmp123".toList (by decide)
     (Or.inr (by decide))⟩

/-- C6, as stated, fails, for paths that lead out of the root and for roots that
are not clean.  `../x` is a clean relative path that is neither ignored nor
temporary nor in progress: root `/r` joined with it (`filepath.Join`) is `/x`,
outside the root, so `newFsEvent` returns nil and no entry is made; under root
`/` the joined path is again `/x` (cleaned or not), inside the root, and the
entry made is `x`, not `../x`.  The root `.` joined with `b` is `b`, the root
`/a/../r` (which cleans to `/r`) joined with `x` is `/r/x`, and the root `/r//`
(`/r/` once `isSubpath` has stripped one separator) joined with `.` is `/r`:
none of the three roots is a string prefix of its joined path, so again no
entry is made. -/
theorem relative_path_conversion_counterexample :
    (Filepath.Clean "../x".toList = "../x".toList ∧
      IsPathSeparator (Filepath.byteAt "../x".toList 0) = false ∧
      shouldIgnore scenarioEnv scenarioWatcher "../x".toList = false ∧
      pathInProgress scenarioWatcher "../x".toList = false) ∧
    (Filepath.Join scenarioWatcher.folderPath "../x".toList = "/x".toList ∧
      newFsEvent scenarioEnv scenarioWatcher
        (Filepath.Join scenarioWatcher.folderPath "../x".toList) = none ∧
      (selectCase scenarioEnv scenarioWatcher
        (Select.fsEvent (Filepath.Join scenarioWatcher.folderPath "../x".toList))).fsEvents.get?
          "../x".toList = none) ∧
    (Filepath.Join "/".toList "../x".toList = "/x".toList ∧
      (selectCase scenarioEnv (NewFsWatcher "/".toList (fun _ => false))
        (Select.fsEvent "/x".toList)).fsEvents = [("x".toList, ⟨"x".toList⟩)] ∧
      (selectCase scenarioEnv (NewFsWatcher "/".toList (fun _ => false))
        (Select.fsEvent "//../x".toList)).fsEvents = [("x".toList, ⟨"x".toList⟩)]) ∧
    (Filepath.Clean "b".toList = "b".toList ∧
      Filepath.Join ".".toList "b".toList = "b".toList ∧
      (selectCase scenarioEnv (NewFsWatcher ".".toList (fun _ => false))
        (Select.fsEvent (Filepath.Join ".".toList "b".toList))).fsEvents = []) ∧
    (Filepath.Clean "x".toList = "x".toList ∧
      Filepath.Clean "/a/../r".toList = "/r".toList ∧
      Filepath.Join "/a/../r".toList "x".toList = "/r/x".toList ∧
      (selectCase scenarioEnv (NewFsWatcher "/a/../r".toList (fun _ => false))
        (Select.fsEvent (Filepath.Join "/a/../r".toList "x".toList))).fsEvents = []) ∧
    (Filepath.Clean ".".toList = ".".toList ∧
      stripTrailingSeparator "/r//".toList = "/r/".toList ∧
      Filepath.Join "/r//".toList ".".toList = "/r".toList ∧
      (selectCase scenarioEnv (NewFsWatcher "/r//".toList (fun _ => false))
        (Select.fsEvent (Filepath.Join "/r//".toList ".".toList))).fsEvents = []) := by
  decide

/-- C6, amended. Relative-path conversion, with Go's `filepath.Join` and
`filepath.Rel`: for every root that is empty or that, apart from one trailing
separator (the one `isSubpath` strips), is a clean path other than `.`, and
every clean relative path `p` that does not lead out of the root (`p` is not
`..` and does not begin with `../`), such that `p` is not ignored, not
temporary and not in the in-progress registry, processing a raw event with path
`filepath.Join(root, p)` makes the entry `p` in the pending batch: the event
made is `p`, the entry's key and its stored path are both exactly `p`, and it
is the only entry with that key. -/
theorem relative_path_conversion (isTemporary : GoString → Bool) (w : FsWatcher)
    (p : GoString)
    (hroot : w.folderPath = [] ∨
      (Filepath.Clean (stripTrailingSeparator w.folderPath) =
          stripTrailingSeparator w.folderPath ∧
        stripTrailingSeparator w.folderPath ≠ ['.']))
    (hclean : Filepath.Clean p = p)
    (hrel : IsPathSeparator (Filepath.byteAt p 0) = false)
    (hup : p ≠ ['.', '.'] ∧ ['.', '.', '/'].isPrefixOf p = false)
    (hign : shouldIgnore (goEnv isTemporary) w p = false)
    (hprog : pathInProgress w p = false) :
    newFsEvent (goEnv isTemporary) w (Filepath.Join w.folderPath p) = some ⟨p⟩ ∧
    (selectCase (goEnv isTemporary) w
        (Select.fsEvent (Filepath.Join w.folderPath p))).fsEvents = w.fsEvents.set p ⟨p⟩ ∧
    (selectCase (goEnv isTemporary) w
        (Select.fsEvent (Filepath.Join w.folderPath p))).fsEvents.get? p = some ⟨p⟩ ∧
    (selectCase (goEnv isTemporary) w
        (Select.fsEvent (Filepath.Join w.folderPath p))).fsEvents.keys.count p = 1 := by
  obtain ⟨rooted, trailing, k, cs, hk, hcs, htr, hR⟩ :=
    Filepath.rootPath_of_clean w.folderPath hroot
  obtain ⟨ds, hds, hp⟩ := Filepath.cleanPath_of_clean p hclean hrel hup
  have hsub := isSubpath_Join_rootPath rooted trailing k cs ds hk hcs htr hds
  have hrl := goEnv_Rel_Join_rootPath isTemporary rooted trailing k cs ds hk hcs htr hds
  rw [← hR, ← hp] at hsub hrl
  have h := selectCase_fsEvent_of_isSubpath (goEnv isTemporary) w
    (Filepath.Join w.folderPath p) hsub (by rw [hrl]; exact hign) (by rw [hrl]; exact hprog)
  rw [hrl] at h
  refine ⟨h.1, h.2, ?_, ?_⟩
  · rw [h.2]
    exact FsEventsBatch.get?_set_self _ _ _
  · rw [h.2]
    exact FsEventsBatch.count_keys_set_self _ _ _

/-- Scenario A: root `/r` joined with `a/b.txt` is the event path `/r/a/b.txt`,
and the entry made is `a/b.txt`. -/
theorem relative_path_conversion_witness :
    (Filepath.Join scenarioWatcher.folderPath "a/b.txt".toList = "/r/a/b.txt".toList ∧
      (selectCase scenarioEnv scenarioWatcher (Select.fsEvent "/r/a/b.txt".toList)).fsEvents =
        [("a/b.txt".toList, ⟨"a/b.txt".toList⟩)]) ∧
    (newFsEvent scenarioEnv scenarioWatcher
        (Filepath.Join scenarioWatcher.folderPath "a/b.txt".toList) =
        some ⟨"a/b.txt".toList⟩ ∧
      (selectCase scenarioEnv scenarioWatcher
        (Select.fsEvent (Filepath.Join scenarioWatcher.folderPath "a/b.txt".toList))).fsEvents =
        scenarioWatcher.fsEvents.set "a/b.txt".toList ⟨"a/b.txt".toList⟩ ∧
      (selectCase scenarioEnv scenarioWatcher
        (Select.fsEvent
          (Filepath.Join scenarioWatcher.folderPath "a/b.txt".toList))).fsEvents.get?
          "a/b.txt".toList = some ⟨"a/b.txt".toList⟩ ∧
      (selectCase scenarioEnv scenarioWatcher
        (Select.fsEvent
          (Filepath.Join scenarioWatcher.folderPath "a/b.txt".toList))).fsEvents.keys.count
          "a/b.txt".toList = 1) :=
  ⟨by decide,
   relative_path_conversion (fun path => path == "~tmp123".toList) scenarioWatcher
     "a/b.txt".toList (Or.inr (by decide)) (by decide) (by decide) (by decide) (by decide)
     (by decide)⟩

/-- C7. Idempotence of batching: for a path that is not in the in-progress
registry, storing its event twice leaves the same watcher state, and so the
same pending batch, as storing it once; that batch has exactly one entry for the
path, and the entry holds the event. -/
theorem storeFsEvent_idempotent (w : FsWatcher) (p : GoString)
    (h : pathInProgress w p = false) :
    storeFsEvent (storeFsEvent w ⟨p⟩) ⟨p⟩ = storeFsEvent w ⟨p⟩ ∧
    (storeFsEvent (storeFsEvent w ⟨p⟩) ⟨p⟩).fsEvents = (storeFsEvent w ⟨p⟩).fsEvents ∧
    (storeFsEvent w ⟨p⟩).fsEvents.keys.count p = 1 ∧
    (storeFsEvent w ⟨p⟩).fsEvents.get? p = some ⟨p⟩ := by
  have h1 : storeFsEvent w ⟨p⟩ = { w with fsEvents := w.fsEvents.set p ⟨p⟩ } :=
    storeFsEvent_of_not_inProgress w ⟨p⟩ h
  have h2 : pathInProgress (storeFsEvent w ⟨p⟩) p = false := by
    rw [h1]; exact h
  have h3 : storeFsEvent (storeFsEvent w ⟨p⟩) ⟨p⟩ = storeFsEvent w ⟨p⟩ := by
    rw [storeFsEvent_of_not_inProgress (storeFsEvent w ⟨p⟩) ⟨p⟩ h2, h1]
    simp [FsEventsBatch.set_set]
  refine ⟨h3, by rw [h3], ?_, ?_⟩
  · rw [h1]
    exact FsEventsBatch.count_keys_set_self _ _ _
  · rw [h1]
    exact FsEventsBatch.get?_set_self _ _ _

/-- Storing `a/b.txt` twice in the watcher of the scenarios. -/
theorem storeFsEvent_idempotent_witness :
    storeFsEvent (storeFsEvent scenarioWatcher ⟨"a/b.txt".toList⟩) ⟨"a/b.txt".toList⟩ =
      storeFsEvent scenarioWatcher ⟨"a/b.txt".toList⟩ ∧
    (storeFsEvent (storeFsEvent scenarioWatcher ⟨"a/b.txt".toList⟩)
      ⟨"a/b.txt".toList⟩).fsEvents =
      (storeFsEvent scenarioWatcher ⟨"a/b.txt".toList⟩).fsEvents ∧
    (storeFsEvent scenarioWatcher ⟨"a/b.txt".toList⟩).fsEvents.keys.count "a/b.txt".toList = 1 ∧
    (storeFsEvent scenarioWatcher ⟨"a/b.txt".toList⟩).fsEvents.get? "a/b.txt".toList =
      some ⟨"a/b.txt".toList⟩ :=
  storeFsEvent_idempotent scenarioWatcher "a/b.txt".toList (by decide)

/-- C8. Suppress-then-release: let `p` be the relative path of a raw event
inside the root, not ignored and not temporary, and not in the pending batch.
After `ItemStarted p` and the raw event, the pending batch is as it was, so
without `p`; after `ItemFinished p`, the same raw event again and a timer
fire, one batch has been sent, and it holds the entry for `p`. -/
theorem suppress_then_release (env : Env) (w : FsWatcher) (e p : GoString)
    (hsub : isSubpath e w.folderPath = true)
    (hrel : env.Rel w.folderPath e = p)
    (hign : shouldIgnore env w p = false)
    (hbatch : p ∉ w.fsEvents.keys) :
    (runLoop env w [Select.item ⟨EventType.ItemStarted, p⟩, Select.fsEvent e]).fsEvents =
      w.fsEvents ∧
    p ∉ (runLoop env w
      [Select.item ⟨EventType.ItemStarted, p⟩, Select.fsEvent e]).fsEvents.keys ∧
    (runLoop env w
      [Select.item ⟨EventType.ItemStarted, p⟩, Select.fsEvent e,
       Select.item ⟨EventType.ItemFinished, p⟩, Select.fsEvent e,
       Select.timer]).notifyModelChan = w.notifyModelChan ++ [w.fsEvents.set p ⟨p⟩] ∧
    p ∈ (w.fsEvents.set p ⟨p⟩).keys ∧
    (w.fsEvents.set p ⟨p⟩).get? p = some ⟨p⟩ := by
  simp only [runLoop, List.foldl_cons, List.foldl_nil]
  -- after ItemStarted
  have f1 := loopIteration_frame env w (Select.item ⟨EventType.ItemStarted, p⟩)
  have i1 := loopIteration_item env w ⟨EventType.ItemStarted, p⟩
  generalize loopIteration env w (Select.item ⟨EventType.ItemStarted, p⟩) = w1 at f1 i1 ⊢
  have p1 : pathInProgress w1 p = true := by
    rw [pathInProgress_congr _ _ p i1.2.2]
    exact pathInProgress_started w p
  -- after the first raw event
  have f2 := loopIteration_frame env w1 (Select.fsEvent e)
  have e2 := loopIteration_fsEvent env w1 e
  rw [f1.1, hrel, if_neg (fun h => by rw [p1] at h; exact Bool.noConfusion h.2.2)] at e2
  generalize loopIteration env w1 (Select.fsEvent e) = w2 at f2 e2 ⊢
  have hw2 : w2.fsEvents = w.fsEvents := e2.1.trans i1.1
  -- after ItemFinished
  have f3 := loopIteration_frame env w2 (Select.item ⟨EventType.ItemFinished, p⟩)
  have i3 := loopIteration_item env w2 ⟨EventType.ItemFinished, p⟩
  generalize loopIteration env w2 (Select.item ⟨EventType.ItemFinished, p⟩) = w3 at f3 i3 ⊢
  have p3 : pathInProgress w3 p = false := by
    rw [pathInProgress_congr _ _ p i3.2.2]
    exact pathInProgress_finished w2 p
  have hfold3 : w3.folderPath = w.folderPath := f3.1.trans (f2.1.trans f1.1)
  have hign3 : shouldIgnore env w3 p = false := by
    rw [shouldIgnore_congr env w w3 p (f3.2.trans (f2.2.trans f1.2))]
    exact hign
  -- after the second raw event
  have e4 := loopIteration_fsEvent env w3 e
  rw [hfold3, hrel, if_pos ⟨hsub, hign3, p3⟩] at e4
  generalize loopIteration env w3 (Select.fsEvent e) = w4 at e4 ⊢
  have hw4 : w4.fsEvents = w.fsEvents.set p ⟨p⟩ := by
    rw [e4.1, i3.1, hw2]
  have hc4 : w4.notifyModelChan = w.notifyModelChan := by
    rw [e4.2.2, i3.2.1, e2.2.2, i1.2.1]
  -- the timer fire
  have t5 := loopIteration_timer env w4
  have hlen : w4.fsEvents.len > 0 := by
    rw [hw4]
    simp [FsEventsBatch.set, FsEventsBatch.len]
  rw [if_pos hlen, hw4, hc4] at t5
  refine ⟨hw2, ?_, t5.1, ?_, FsEventsBatch.get?_set_self _ _ _⟩
  · rw [hw2]
    exact hbatch
  · exact (FsEventsBatch.mem_keys_set _ _ _ _).mpr (Or.inl rfl)

/-- Scenario C: `docs/report.txt` under root `/r`. -/
theorem suppress_then_release_witness :
    (runLoop scenarioEnv scenarioWatcher
      [Select.item ⟨EventType.ItemStarted, "docs/report.txt".toList⟩,
       Select.fsEvent "/r/docs/report.txt".toList]).fsEvents = scenarioWatcher.fsEvents ∧
    "docs/report.txt".toList ∉ (runLoop scenarioEnv scenarioWatcher
      [Select.item ⟨EventType.ItemStarted, "docs/report.txt".toList⟩,
       Select.fsEvent "/r/docs/report.txt".toList]).fsEvents.keys ∧
    (runLoop scenarioEnv scenarioWatcher
      [Select.item ⟨EventType.ItemStarted, "docs/report.txt".toList⟩,
       Select.fsEvent "/r/docs/report.txt".toList,
       Select.item ⟨EventType.ItemFinished, "docs/report.txt".toList⟩,
       Select.fsEvent "/r/docs/report.txt".toList,
       Select.timer]).notifyModelChan =
      scenarioWatcher.notifyModelChan ++
        [scenarioWatcher.fsEvents.set "docs/report.txt".toList ⟨"docs/report.txt".toList⟩] ∧
    "docs/report.txt".toList ∈
      (scenarioWatcher.fsEvents.set "docs/report.txt".toList ⟨"docs/report.txt".toList⟩).keys ∧
    (scenarioWatcher.fsEvents.set "docs/report.txt".toList
      ⟨"docs/report.txt".toList⟩).get? "docs/report.txt".toList =
      some ⟨"docs/report.txt".toList⟩ :=
  suppress_then_release scenarioEnv scenarioWatcher "/r/docs/report.txt".toList
    "docs/report.txt".toList (by decide) (by decide) (by decide) (by decide)

/-- C11. Debounce-state invariant: in the state `NewFsWatcher` makes and in
every state the loop reaches from it (raw event, timer fire, lifecycle
notification, top-of-loop reset, in any order), `notifyDelay` is the fast or the
slow delay, and it is the fast delay whenever the pending batch is non-empty.
A loop step that takes `notifyDelay` from fast to slow is a timer fire that
finds the pending batch empty. -/
theorem debounce_invariant (env : Env) :
    (∀ folderPath ignores,
      (NewFsWatcher folderPath ignores).notifyDelay = fastNotifyDelay ∧
      (NewFsWatcher folderPath ignores).fsEvents = []) ∧
    (∀ w, Reachable env w →
      (w.notifyDelay = fastNotifyDelay ∨ w.notifyDelay = slowNotifyDelay) ∧
      (w.fsEvents ≠ [] → w.notifyDelay = fastNotifyDelay)) ∧
    (∀ w st, w.notifyDelay = fastNotifyDelay →
      (applyStep env w st).notifyDelay = slowNotifyDelay →
      st = LoopStep.select Select.timer ∧ w.fsEvents = []) := by
  have hne : fastNotifyDelay ≠ slowNotifyDelay := by decide
  refine ⟨fun _ _ => ⟨rfl, rfl⟩, fun w h => ?_, ?_⟩
  · have hi := reachable_debounce env w h
    exact ⟨hi.1, hi.2.1⟩
  · intro w st hfast hslow
    cases st with
    | reset =>
      have hf := resetNotifyTimerIfNeeded_frame w
      simp only [applyStep] at hslow
      rw [hf.2.2.2.2.2, hfast] at hslow
      exact absurd hslow hne
    | select s =>
      cases s with
      | fsEvent e =>
        simp only [applyStep, selectCase] at hslow
        have hd := onFsEvent_debounce env w e
        by_cases hn : newFsEvent env w e = none
        · rw [hd.2.1 hn, hfast] at hslow
          exact absurd hslow hne
        · rw [(hd.2.2 hn).1] at hslow
          exact absurd hslow hne
      | timer =>
        refine ⟨rfl, ?_⟩
        simp only [applyStep, selectCase] at hslow
        by_contra he
        rw [(actOnTimer_debounce w).2.2.2.1 he, hfast] at hslow
        exact hne hslow
      | item ev =>
        simp only [applyStep, selectCase] at hslow
        rw [(updateInProgressSet_debounce w ev).1, hfast] at hslow
        exact absurd hslow hne

/-- The loop entered from the scenario watcher, and a timer fire that finds
nothing pending. -/
theorem debounce_invariant_witness :
    scenarioAfterIdleFire.notifyDelay = slowNotifyDelay ∧
    ((scenarioAfterIdleFire.notifyDelay = fastNotifyDelay ∨
        scenarioAfterIdleFire.notifyDelay = slowNotifyDelay) ∧
      (scenarioAfterIdleFire.fsEvents ≠ [] →
        scenarioAfterIdleFire.notifyDelay = fastNotifyDelay)) ∧
    (LoopStep.select Select.timer = LoopStep.select Select.timer ∧
      scenarioLoopStart.fsEvents = []) :=
  ⟨by decide,
   (debounce_invariant scenarioEnv).2.1 scenarioAfterIdleFire
     (Reachable.step _ _ (Reachable.start _ _)),
   (debounce_invariant scenarioEnv).2.2 scenarioLoopStart (LoopStep.select Select.timer)
     (by decide) (by decide)⟩

/-- C12. Single rearm point and debounce timing: no case of the `select` and no
`UpdateIgnores` changes the duration the timer is armed with, only
`resetNotifyTimerIfNeeded` does; in every reachable state a timer that needs
no reset is armed with `notifyDelay`.  So at the wait point after an accepted
raw event the timer is armed with the fast delay, 500 ms, and at the wait point
after a timer fire that found the pending batch empty it is armed with the slow
delay, 60 s. -/
theorem single_rearm_point (env : Env) :
    (∀ w s, (selectCase env w s).notifyTimer = w.notifyTimer) ∧
    (∀ w ignores, (UpdateIgnores w ignores).notifyTimer = w.notifyTimer) ∧
    (∀ w, Reachable env w → w.notifyTimerNeedsReset = false →
      w.notifyTimer = some w.notifyDelay) ∧
    (∀ w eventPath, Reachable env w → newFsEvent env w eventPath ≠ none →
      (resetNotifyTimerIfNeeded
        (selectCase env w (Select.fsEvent eventPath))).notifyTimer = some 500000000) ∧
    (∀ w, w.fsEvents = [] →
      (resetNotifyTimerIfNeeded (selectCase env w Select.timer)).notifyTimer =
        some 60000000000) := by
  refine ⟨?_, fun _ _ => rfl, fun w h => (reachable_debounce env w h).2.2, ?_, ?_⟩
  · intro w s
    cases s with
    | fsEvent e => exact (onFsEvent_debounce env w e).1
    | timer => exact (actOnTimer_debounce w).1
    | item ev => exact (updateInProgressSet_debounce w ev).2.1
  · intro w e h hacc
    have hr := Reachable.step w (LoopStep.select (Select.fsEvent e)) h
    have hi := (reachable_debounce env _ hr).2.2
    simp only [applyStep] at hi
    have hfast : (selectCase env w (Select.fsEvent e)).notifyDelay = fastNotifyDelay :=
      ((onFsEvent_debounce env w e).2.2 hacc).1
    have hd := resetNotifyTimerIfNeeded_debounce (selectCase env w (Select.fsEvent e))
    cases hn : (selectCase env w (Select.fsEvent e)).notifyTimerNeedsReset
    · rw [hd.2.2 hn, hi hn, hfast]; rfl
    · rw [hd.2.1 hn, hfast]; rfl
  · intro w he
    have ha := actOnTimer_debounce w
    have hd := resetNotifyTimerIfNeeded_debounce (selectCase env w Select.timer)
    have hn : (selectCase env w Select.timer).notifyTimerNeedsReset = true := ha.2.1
    have hs : (selectCase env w Select.timer).notifyDelay = slowNotifyDelay := ha.2.2.2.2 he
    rw [hd.2.1 hn, hs]; rfl

/-- The wait point after an accepted event that follows an idle fire, and the
wait point after the idle fire itself. -/
theorem single_rearm_point_witness :
    scenarioAfterIdleFire.notifyTimer = some 500000000 ∧
    (resetNotifyTimerIfNeeded
      (selectCase scenarioEnv scenarioAfterIdleFire
        (Select.fsEvent "/r/a.txt".toList))).notifyTimer = some 500000000 ∧
    (resetNotifyTimerIfNeeded
      (selectCase scenarioEnv scenarioLoopStart Select.timer)).notifyTimer =
      some 60000000000 :=
  ⟨by decide,
   (single_rearm_point scenarioEnv).2.2.2.1 scenarioAfterIdleFire "/r/a.txt".toList
     (Reachable.step _ _ (Reachable.start _ _)) (by decide),
   (single_rearm_point scenarioEnv).2.2.2.2 scenarioLoopStart (by decide)⟩

/-- C13. The in-progress registry has set semantics: after `ItemStarted` for
`p` the registry contains `p`; after `ItemFinished` for `p` it does not,
however many `ItemStarted` for `p` came before; the membership of every other
path is the same before and after either notification. -/
theorem inProgress_set_semantics (w : FsWatcher) (p : GoString) :
    pathInProgress (updateInProgressSet w ⟨EventType.ItemStarted, p⟩) p = true ∧
    pathInProgress (updateInProgressSet w ⟨EventType.ItemFinished, p⟩) p = false ∧
    (∀ n : Nat, pathInProgress
      (updateInProgressSet
        ((fun v => updateInProgressSet v ⟨EventType.ItemStarted, p⟩)^[n] w)
        ⟨EventType.ItemFinished, p⟩) p = false) ∧
    (∀ q, q ≠ p →
      pathInProgress (updateInProgressSet w ⟨EventType.ItemStarted, p⟩) q =
        pathInProgress w q ∧
      pathInProgress (updateInProgressSet w ⟨EventType.ItemFinished, p⟩) q =
        pathInProgress w q) :=
  ⟨pathInProgress_started w p, pathInProgress_finished w p,
   fun _ => pathInProgress_finished _ p,
   fun q hq => ⟨pathInProgress_other w ⟨EventType.ItemStarted, p⟩ q hq,
     pathInProgress_other w ⟨EventType.ItemFinished, p⟩ q hq⟩⟩

/-- The registry with `docs/report.txt` in progress, and the other path `a.txt`. -/
theorem inProgress_set_semantics_witness :
    pathInProgress scenarioInProgress "docs/report.txt".toList = true ∧
    pathInProgress
      (updateInProgressSet scenarioInProgress
        ⟨EventType.ItemStarted, "docs/report.txt".toList⟩) "docs/report.txt".toList = true ∧
    pathInProgress
      (updateInProgressSet scenarioInProgress
        ⟨EventType.ItemFinished, "docs/report.txt".toList⟩) "docs/report.txt".toList = false ∧
    (pathInProgress
        (updateInProgressSet scenarioInProgress
          ⟨EventType.ItemStarted, "docs/report.txt".toList⟩) "a.txt".toList =
        pathInProgress scenarioInProgress "a.txt".toList ∧
      pathInProgress
        (updateInProgressSet scenarioInProgress
          ⟨EventType.ItemFinished, "docs/report.txt".toList⟩) "a.txt".toList =
        pathInProgress scenarioInProgress "a.txt".toList) :=
  ⟨by decide,
   (inProgress_set_semantics scenarioInProgress "docs/report.txt".toList).1,
   (inProgress_set_semantics scenarioInProgress "docs/report.txt".toList).2.1,
   (inProgress_set_semantics scenarioInProgress "docs/report.txt".toList).2.2.2
     "a.txt".toList (by decide)⟩

/-- C14. No retroactive removal: a lifecycle notification, started or finished,
for any path, leaves the pending batch, `notifyDelay` and
`notifyTimerNeedsReset` as they were.  So when a path is in the pending batch
and a notification arrives before the next timer fire, that fire still sends
the batch as it was, with the path in it. -/
theorem updateInProgressSet_not_retroactive (env : Env) (w : FsWatcher) (event : Event) :
    (updateInProgressSet w event).fsEvents = w.fsEvents ∧
    (updateInProgressSet w event).notifyDelay = w.notifyDelay ∧
    (updateInProgressSet w event).notifyTimerNeedsReset = w.notifyTimerNeedsReset ∧
    (∀ p, p ∈ w.fsEvents.keys →
      ∃ B, (runLoop env w [Select.item event, Select.timer]).notifyModelChan =
          w.notifyModelChan ++ [B] ∧
        B = w.fsEvents ∧ p ∈ B.keys) := by
  have hf := updateInProgressSet_frame w event
  have hd := updateInProgressSet_debounce w event
  refine ⟨hf.2.2.1, hd.1, hd.2.2, ?_⟩
  intro p hp
  refine ⟨w.fsEvents, ?_, rfl, hp⟩
  have hne : w.fsEvents.len > 0 := by
    cases hb : w.fsEvents with
    | nil => rw [hb] at hp; simp [FsEventsBatch.keys] at hp
    | cons e rest => simp [FsEventsBatch.len]
  simp only [runLoop, List.foldl_cons, List.foldl_nil]
  have hi := loopIteration_item env w event
  have ht := loopIteration_timer env (loopIteration env w (Select.item event))
  rw [ht.1, hi.1, hi.2.1, if_pos hne]

/-- The path `a/b.txt` is pending when `ItemStarted` for it arrives; the next
timer fire still sends it. -/
theorem updateInProgressSet_not_retroactive_witness :
    ∃ B, (runLoop scenarioEnv (storeFsEvent scenarioWatcher ⟨"a/b.txt".toList⟩)
        [Select.item ⟨EventType.ItemStarted, "a/b.txt".toList⟩,
         Select.timer]).notifyModelChan =
        (storeFsEvent scenarioWatcher ⟨"a/b.txt".toList⟩).notifyModelChan ++ [B] ∧
      B = (storeFsEvent scenarioWatcher ⟨"a/b.txt".toList⟩).fsEvents ∧
      "a/b.txt".toList ∈ B.keys :=
  (updateInProgressSet_not_retroactive scenarioEnv
    (storeFsEvent scenarioWatcher ⟨"a/b.txt".toList⟩)
    ⟨EventType.ItemStarted, "a/b.txt".toList⟩).2.2.2 "a/b.txt".toList (by decide)

/-- C17, evaluated on the code: the sibling path `/r2/x.txt` is not the root
`/r` and does not start with `/r/`, yet `isSubpath` accepts it, `newFsEvent`
returns an event, and the pending batch gets the entry `../r2/x.txt`. -/
theorem newFsEvent_sibling_of_root :
    ("/r2/x.txt".toList ≠ "/r".toList ∧
      ("/r".toList ++ ['/']).isPrefixOf "/r2/x.txt".toList = false) ∧
    isSubpath "/r2/x.txt".toList scenarioWatcher.folderPath = true ∧
    newFsEvent scenarioEnv scenarioWatcher "/r2/x.txt".toList =
      some ⟨"../r2/x.txt".toList⟩ ∧
    (selectCase scenarioEnv scenarioWatcher (Select.fsEvent "/r2/x.txt".toList)).fsEvents =
      [("../r2/x.txt".toList, ⟨"../r2/x.txt".toList⟩)] := by
  decide

/-- C18. Trailing-separator normalization in `isSubpath`: for a non-empty path
`p` and a non-empty root `f`, neither ending in a path separator, the four calls
`isSubpath(p, f)`, `isSubpath(p + sep, f)`, `isSubpath(p, f + sep)` and
`isSubpath(p + sep, f + sep)` all return whether `f` is a string prefix
of `p`. -/
theorem isSubpath_trailing_separator (p f : GoString) (hp : p ≠ []) (hf : f ≠ [])
    (hpl : p.getLast?.any IsPathSeparator = false)
    (hfl : f.getLast?.any IsPathSeparator = false) :
    isSubpath p f = f.isPrefixOf p ∧
    isSubpath (p ++ ['/']) f = f.isPrefixOf p ∧
    isSubpath p (f ++ ['/']) = f.isPrefixOf p ∧
    isSubpath (p ++ ['/']) (f ++ ['/']) = f.isPrefixOf p := by
  have h1 := stripTrailingSeparator_of_no_separator p hpl
  have h2 := stripTrailingSeparator_of_no_separator f hfl
  have h3 := stripTrailingSeparator_append p hp
  have h4 := stripTrailingSeparator_append f hf
  simp only [isSubpath, h1, h2, h3, h4, and_self]

/-- The path `/r/a` and the root `/r`, with and without a trailing separator. -/
theorem isSubpath_trailing_separator_witness :
    isSubpath "/r/a".toList "/r".toList = true ∧
    (isSubpath "/r/a".toList "/r".toList = "/r".toList.isPrefixOf "/r/a".toList ∧
      isSubpath ("/r/a".toList ++ ['/']) "/r".toList = "/r".toList.isPrefixOf "/r/a".toList ∧
      isSubpath "/r/a".toList ("/r".toList ++ ['/']) = "/r".toList.isPrefixOf "/r/a".toList ∧
      isSubpath ("/r/a".toList ++ ['/']) ("/r".toList ++ ['/']) =
        "/r".toList.isPrefixOf "/r/a".toList) :=
  ⟨by decide,
   isSubpath_trailing_separator "/r/a".toList "/r".toList (by decide) (by decide)
     (by decide) (by decide)⟩

/-- C19. An event suppressed by the in-progress registry still speeds up the
timer: a raw event inside the root that passes the ignore/temporary filter
sets `notifyDelay` to the fast delay, and sets `notifyTimerNeedsReset` when the
delay was not the fast one (it keeps the flag otherwise), whether or not its
path is in the in-progress registry; when it is, the pending batch stays as it
was. -/
theorem suppressed_event_speeds_up (env : Env) (w : FsWatcher) (eventPath : GoString)
    (hsub : isSubpath eventPath w.folderPath = true)
    (hign : shouldIgnore env w (env.Rel w.folderPath eventPath) = false) :
    (selectCase env w (Select.fsEvent eventPath)).notifyDelay = fastNotifyDelay ∧
    (w.notifyDelay ≠ fastNotifyDelay →
      (selectCase env w (Select.fsEvent eventPath)).notifyTimerNeedsReset = true) ∧
    (w.notifyDelay = fastNotifyDelay →
      (selectCase env w (Select.fsEvent eventPath)).notifyTimerNeedsReset =
        w.notifyTimerNeedsReset) ∧
    (pathInProgress w (env.Rel w.folderPath eventPath) = true →
      (selectCase env w (Select.fsEvent eventPath)).fsEvents = w.fsEvents) := by
  have hnew : newFsEvent env w eventPath ≠ none := by
    simp [newFsEvent, hsub, hign]
  have hd := (onFsEvent_debounce env w eventPath).2.2 hnew
  refine ⟨hd.1, hd.2.1, hd.2.2, ?_⟩
  intro hprog
  show (onFsEvent env w eventPath).fsEvents = w.fsEvents
  rw [onFsEvent_fsEvents, if_neg]
  intro hc
  rw [hprog] at hc
  exact Bool.noConfusion hc.2.2

/-- The watcher is idle at the slow delay with `docs/report.txt` in progress;
a raw event for that path speeds the timer up and leaves the batch alone. -/
theorem suppressed_event_speeds_up_witness :
    scenarioSlowInProgress.notifyDelay = slowNotifyDelay ∧
    pathInProgress scenarioSlowInProgress "docs/report.txt".toList = true ∧
    (selectCase scenarioEnv scenarioSlowInProgress
      (Select.fsEvent "/r/docs/report.txt".toList)).notifyDelay = fastNotifyDelay ∧
    (selectCase scenarioEnv scenarioSlowInProgress
      (Select.fsEvent "/r/docs/report.txt".toList)).notifyTimerNeedsReset = true ∧
    (selectCase scenarioEnv scenarioSlowInProgress
      (Select.fsEvent "/r/docs/report.txt".toList)).fsEvents =
      scenarioSlowInProgress.fsEvents :=
  ⟨by decide, by decide,
   (suppressed_event_speeds_up scenarioEnv scenarioSlowInProgress
     "/r/docs/report.txt".toList (by decide) (by decide)).1,
   (suppressed_event_speeds_up scenarioEnv scenarioSlowInProgress
     "/r/docs/report.txt".toList (by decide) (by decide)).2.1 (by decide),
   (suppressed_event_speeds_up scenarioEnv scenarioSlowInProgress
     "/r/docs/report.txt".toList (by decide) (by decide)).2.2.2 (by decide)⟩

/-- C20. Batch key invariant and `GetPaths`: in every reachable state, each
entry of the pending batch and of every batch sent has as its key the path
stored in its event.  So for every batch sent, read in any iteration order,
`GetPaths` returns a permutation of the batch's keys, without duplicates and as
long as the batch has entries. -/
theorem batch_keys_and_getPaths (env : Env) :
    (∀ folderPath ignores, (NewFsWatcher folderPath ignores).fsEvents.KeysArePaths) ∧
    (∀ w, Reachable env w →
      w.fsEvents.KeysArePaths ∧ ∀ B ∈ w.notifyModelChan, B.KeysArePaths) ∧
    (∀ w B order, Reachable env w → B ∈ w.notifyModelChan → order.Perm B →
      (FsEventsBatch.GetPaths order).Perm B.keys ∧
      (FsEventsBatch.GetPaths order).Nodup ∧
      (FsEventsBatch.GetPaths order).length = B.len) := by
  refine ⟨fun _ _ e he => absurd he (List.not_mem_nil e), fun w h => ?_, ?_⟩
  · have hi := reachable_batches env w h
    exact ⟨hi.1.1, fun B hB => (hi.2 B hB).1⟩
  · intro w B order h hB ho
    have hi := (reachable_batches env w h).2 B hB
    exact FsEventsBatch.GetPaths_of_keysArePaths B order hi.1 hi.2 ho

/-- The batch sent after one raw event for `/r/a.txt` and a timer fire. -/
theorem batch_keys_and_getPaths_witness :
    scenarioDelivered.notifyModelChan = [[("a.txt".toList, ⟨"a.txt".toList⟩)]] ∧
    ((FsEventsBatch.GetPaths [("a.txt".toList, ⟨"a.txt".toList⟩)]).Perm
        (FsEventsBatch.keys [("a.txt".toList, ⟨"a.txt".toList⟩)]) ∧
      (FsEventsBatch.GetPaths [("a.txt".toList, ⟨"a.txt".toList⟩)]).Nodup ∧
      (FsEventsBatch.GetPaths [("a.txt".toList, ⟨"a.txt".toList⟩)]).length =
        FsEventsBatch.len [("a.txt".toList, ⟨"a.txt".toList⟩)]) :=
  ⟨by decide,
   (batch_keys_and_getPaths scenarioEnv).2.2 scenarioDelivered
     [("a.txt".toList, ⟨"a.txt".toList⟩)] [("a.txt".toList, ⟨"a.txt".toList⟩)]
     (Reachable.step _ _ (Reachable.step _ _ (Reachable.start _ _))) (by decide)
     (List.Perm.refl _)⟩

end Fswatcher

namespace Model

open Fswatcher (Duration Second Millisecond)

/-- Inside the `int64` range nothing wraps. -/
theorem wrapInt64_of_range (x : Int) (h0 : -2 ^ 63 ≤ x) (h1 : x < 2 ^ 63) :
    wrapInt64 x = x := by
  unfold wrapInt64
  omega

/-- C9, as stated, fails.  For `I = 1` and `r = 0` the timer is armed with
`d = 0`, below `0.75 * I`, because the division truncates.  For
`I = 4 * 10^18` (still an `int64`, and `2 * I` too) `3 * I` wraps around and
the timer is armed with a negative duration. -/
theorem reschedule_jitter_counterexample :
    ((0 : Int) < 1 ∧ (0 : Int) ≤ 0 ∧ (0 : Int) < wrapInt64 (2 * 1) ∧
      scenarioScanner.reschedule 1 0 =
        some { scenarioScanner with timer := 0 :: scenarioScanner.timer } ∧
      ¬ (3 * 1 ≤ 4 * (0 : Int))) ∧
    ((0 : Int) < 4000000000000000000 ∧ (4000000000000000000 : Int) < 2 ^ 63 ∧
      (0 : Int) ≤ 0 ∧ (0 : Int) < wrapInt64 (2 * 4000000000000000000) ∧
      scenarioScanner.reschedule 4000000000000000000 0 =
        some { scenarioScanner with
                timer := (-1611686018427387904) :: scenarioScanner.timer } ∧
      ¬ (3 * 4000000000000000000 ≤ 4 * (-1611686018427387904 : Int))) := by
  decide

/-- C9, amended. Scheduler jitter bounds: for every interval `I > 0` with
`5 * I ≤ 2^63` (so that nothing wraps) and every value `r` in `[0, 2 * I)`
that `rand.Int63n(2 * I)` returns, `reschedule` arms the timer with
`d = (3 * I + r) / 4`, and `0.75 * I - 0.75 ≤ d < 1.25 * I`; when `I` is a
multiple of 4 ns (every whole number of seconds is), `0.75 * I ≤ d`. -/
theorem reschedule_jitter (f : folderScanner) (I r : Int)
    (hI : 0 < I) (hmax : 5 * I ≤ 2 ^ 63) (hr0 : 0 ≤ r) (hr1 : r < wrapInt64 (2 * I)) :
    f.reschedule I r = some { f with timer := (3 * I + r).tdiv 4 :: f.timer } ∧
    3 * I - 3 ≤ 4 * (3 * I + r).tdiv 4 ∧
    4 * (3 * I + r).tdiv 4 ≤ 5 * I - 1 ∧
    (4 ∣ I → 3 * I ≤ 4 * (3 * I + r).tdiv 4) := by
  have h2 : wrapInt64 (2 * I) = 2 * I := wrapInt64_of_range _ (by omega) (by omega)
  rw [h2] at hr1
  have h3 : wrapInt64 (I * 3) = 3 * I := by
    rw [wrapInt64_of_range _ (by omega) (by omega)]; ring
  have h4 : wrapInt64 (3 * I + r) = 3 * I + r := wrapInt64_of_range _ (by omega) (by omega)
  have hdiv : (3 * I + r).tdiv 4 = (3 * I + r) / 4 := Int.tdiv_eq_ediv (by omega) (by omega)
  have h5 : wrapInt64 ((3 * I + r).tdiv 4 * 1) = (3 * I + r).tdiv 4 := by
    rw [mul_one, hdiv]
    exact wrapInt64_of_range _ (by omega) (by omega)
  have hne : (I == 0) = false := by
    simp; omega
  refine ⟨?_, ?_, ?_, ?_⟩
  · unfold folderScanner.reschedule
    simp only [hne, h2, h3, h4, h5]
    simp
    omega
  · rw [hdiv]; omega
  · rw [hdiv]; omega
  · intro hd
    rw [hdiv]
    omega

/-- A one-minute interval with the draw `r = 7`. -/
theorem reschedule_jitter_witness :
    scenarioScanner.reschedule 60000000000 7 =
      some { scenarioScanner with timer := 45000000001 :: scenarioScanner.timer } ∧
    (scenarioScanner.reschedule 60000000000 7 =
        some { scenarioScanner with
                timer := (3 * 60000000000 + 7 : Int).tdiv 4 :: scenarioScanner.timer } ∧
      3 * 60000000000 - 3 ≤ 4 * (3 * 60000000000 + 7 : Int).tdiv 4 ∧
      4 * (3 * 60000000000 + 7 : Int).tdiv 4 ≤ 5 * 60000000000 - 1 ∧
      ((4 : Int) ∣ 60000000000 → 3 * 60000000000 ≤ 4 * (3 * 60000000000 + 7 : Int).tdiv 4)) :=
  ⟨by decide,
   reschedule_jitter scenarioScanner 60000000000 7 (by decide) (by decide) (by decide)
     (by decide)⟩

/-- C10. Zero interval is a no-op: `reschedule(0)` returns the scanner as it
was, the timer not reset and no field changed; so `Reschedule` with a zero
`interval` and `LongReschedule` with a zero `longInterval` do the same. -/
theorem reschedule_zero (f : folderScanner) (r : Int) :
    f.reschedule 0 r = some f ∧
    (f.interval = 0 → f.Reschedule r = some f) ∧
    (f.longInterval = 0 → f.LongReschedule r = some f) := by
  refine ⟨rfl, ?_, ?_⟩
  · intro h
    unfold folderScanner.Reschedule
    rw [h]; rfl
  · intro h
    unfold folderScanner.LongReschedule
    rw [h]; rfl

/-- A scanner built with both intervals zero keeps its first timer setting. -/
theorem reschedule_zero_witness :
    scenarioIdleScanner.interval = 0 ∧ scenarioIdleScanner.longInterval = 0 ∧
    scenarioIdleScanner.Reschedule 5 = some scenarioIdleScanner ∧
    scenarioIdleScanner.LongReschedule 5 = some scenarioIdleScanner ∧
    (scenarioIdleScanner.Reschedule 5).map (fun f => f.timer) = some [Millisecond] :=
  ⟨by decide, by decide,
   (reschedule_zero scenarioIdleScanner 5).2.1 (by decide),
   (reschedule_zero scenarioIdleScanner 5).2.2 (by decide),
   by decide⟩

/-- C15, as stated, fails: `RescanIntervalS = 2^55` is a Go `int` and is not
zero, but `2^55 * 10^9` is a multiple of `2^64`, so the `int64` product
is 0 and `HasNoInterval` returns true. -/
theorem hasNoInterval_counterexample :
    (-2 ^ 63 ≤ (36028797018963968 : Int) ∧ (36028797018963968 : Int) < 2 ^ 63) ∧
    (newFolderScanner ⟨36028797018963968, 0⟩).interval = 0 ∧
    (newFolderScanner ⟨36028797018963968, 0⟩).HasNoInterval = true ∧
    (FolderConfiguration.mk 36028797018963968 0).RescanIntervalS ≠ 0 := by
  decide

/-- C15, amended. `HasNoInterval` reports disabled rescanning: for every folder
configuration whose `RescanIntervalS * 10^9` fits in an `int64`, the scanner
built by `newFolderScanner` has that product as its `interval`, and
`HasNoInterval()` is true if and only if `RescanIntervalS` is zero. -/
theorem hasNoInterval_iff (config : FolderConfiguration)
    (h0 : -2 ^ 63 ≤ config.RescanIntervalS * 1000000000)
    (h1 : config.RescanIntervalS * 1000000000 < 2 ^ 63) :
    (newFolderScanner config).interval = config.RescanIntervalS * 1000000000 ∧
    ((newFolderScanner config).HasNoInterval = true ↔ config.RescanIntervalS = 0) := by
  have hw : (newFolderScanner config).interval = config.RescanIntervalS * 1000000000 := by
    show wrapInt64 (config.RescanIntervalS * Second) = _
    exact wrapInt64_of_range _ h0 h1
  refine ⟨hw, ?_⟩
  unfold folderScanner.HasNoInterval
  rw [hw]
  simp

/-- A one-minute rescan interval, and rescanning switched off. -/
theorem hasNoInterval_iff_witness :
    scenarioScanner.HasNoInterval = false ∧ scenarioIdleScanner.HasNoInterval = true ∧
    ((newFolderScanner ⟨60, 3600⟩).interval = (60 : Int) * 1000000000 ∧
      ((newFolderScanner ⟨60, 3600⟩).HasNoInterval = true ↔ (60 : Int) = 0)) :=
  ⟨by decide, by decide, hasNoInterval_iff ⟨60, 3600⟩ (by decide) (by decide)⟩

end Model
